import Mathlib

/-!
Verification of the detection/alerting core of a personal-finance analyzer.

The development shallowly embeds the Python sources:
  * `src/subsentry/core/stats.py`      (median, mad, robust_z)
  * `src/subsentry/core/recurring.py`  (detect_recurring)
  * `src/subsentry/core/anomalies.py`  (merchant_anomalies)
  * `src/subsentry/core/normalize.py`  (clean_merchant, canonical_hint)
  * `src/subsentry/core/engine.py`     (resolve_merchants, recompute,
                                        _events_for_series)
  * `src/subsentry/db/repo.py`         (clear_recurring_and_events, add_event)

Modelling conventions:
  * Python floats are embedded as exact rationals `ℚ`; the constants
    `1.4826`, `1e-6`, `1e-9`, `0.55`, `0.45` appear as the corresponding
    rationals.
  * `datetime` values are embedded as integer POSIX seconds `ℤ`;
    `timedelta.days` of a non-negative difference is floor division by
    86400 (`Int.fdiv`).
  * Python's stable `sorted` is embedded as a stable insertion sort.
  * strings are embedded as `List Char` / `String`, ASCII assumed.
-/

namespace SubSentry

/-! ### Stable insertion sort (model of Python `sorted`)

Python's `sorted` is stable; insertion placing an element before the first
element it is `≤` to (by key) is stable as well and yields the same list. -/

def insertSorted {α : Type} (le : α → α → Bool) (a : α) : List α → List α
  | [] => [a]
  | b :: t => if le a b then a :: b :: t else b :: insertSorted le a t

def sortBy {α : Type} (le : α → α → Bool) : List α → List α
  | [] => []
  | a :: t => insertSorted le a (sortBy le t)

/-! ### Statistics primitives (`src/subsentry/core/stats.py`)

`median` is `numpy.median`: sort ascending; middle element for odd length,
mean of the two middle elements for even length; `0.0` on the empty list.
`mad` is the scaled median absolute deviation with default scale 1.4826. -/

def sortQ (l : List ℚ) : List ℚ := sortBy (fun a b => decide (a ≤ b)) l

def median (x : List ℚ) : ℚ :=
  if x.isEmpty then 0
  else
    let s := sortQ x
    let n := s.length
    if n % 2 = 1 then s.getD (n / 2) 0
    else (s.getD (n / 2 - 1) 0 + s.getD (n / 2) 0) / 2

def mad (x : List ℚ) (scale : ℚ := 14826 / 10000) : ℚ :=
  if x.isEmpty then 0
  else
    let med := median x
    (median (x.map (fun v => |v - med|))) * scale

def robust_z (x med mad_val : ℚ) : ℚ :=
  let denom := if mad_val > 1 / 1000000000 then mad_val else 1
  (x - med) / denom

/-! ### Elementary facts about `median` and `mad` -/

/-- Minimum of a list of rationals (spec-side notion "the list's minimum"). -/
def listMin : List ℚ → ℚ
  | [] => 0
  | a :: t => t.foldl min a

/-- Maximum of a list of rationals (spec-side notion "the list's maximum"). -/
def listMax : List ℚ → ℚ
  | [] => 0
  | a :: t => t.foldl max a

/-! ### Recurring-series detector (`src/subsentry/core/recurring.py`) -/

def CANDIDATE_PERIODS : List ℤ := [7, 14, 28, 30, 31, 365]

structure SeriesResult where
  period_days : ℤ
  amount_median : ℚ
  amount_mad : ℚ
  gap_median : ℚ
  gap_mad : ℚ
  confidence : ℚ
  next_expected_at : ℤ
deriving DecidableEq

/-- One step of Python's `min(..., key=...)` loop: replace the running best
only when the new key is strictly smaller (first-listed minimum wins ties). -/
def npStep (days : ℚ) (best p : ℤ) : ℤ :=
  if |(p : ℚ) - days| < |(best : ℚ) - days| then p else best

/-- `_nearest_period`: `min(CANDIDATE_PERIODS, key=lambda p: abs(p - days))`. -/
def nearest_period (days : ℚ) : ℤ :=
  match CANDIDATE_PERIODS with
  | [] => 0
  | a :: t => t.foldl (npStep days) a

/-- Stable sort of (timestamp, amount) pairs by timestamp, modelling
`sorted(zip(dates, amounts), key=lambda x: x[0])`. -/
def sortPairs (l : List (ℤ × ℚ)) : List (ℤ × ℚ) :=
  sortBy (fun x y => decide (x.1 ≤ y.1)) l

/-- Consecutive whole-day gaps: `(ds[i] - ds[i-1]).days`; `timedelta.days`
is the floor of the second difference divided by 86400. -/
def dayGaps : List ℤ → List ℤ
  | a :: b :: t => Int.fdiv (b - a) 86400 :: dayGaps (b :: t)
  | _ => []

/-- `pairs = sorted(zip(dates, amounts), key=lambda x: x[0])`. -/
def drPairs (dates : List ℤ) (amounts : List ℚ) : List (ℤ × ℚ) :=
  sortPairs (dates.zip amounts)

/-- `ds`: the sorted observation timestamps. -/
def drDates (dates : List ℤ) (amounts : List ℚ) : List ℤ :=
  (drPairs dates amounts).map Prod.fst

/-- `am`: the amounts in sorted-date order. -/
def drAmounts (dates : List ℤ) (amounts : List ℚ) : List ℚ :=
  (drPairs dates amounts).map Prod.snd

/-- `gaps = [(ds[i] - ds[i-1]).days for i in range(1, len(ds))]`. -/
def drGaps (dates : List ℤ) (amounts : List ℚ) : List ℤ :=
  dayGaps (drDates dates amounts)

/-- `gap_med = median(gaps)`. -/
def drGapMed (dates : List ℤ) (amounts : List ℚ) : ℚ :=
  median ((drGaps dates amounts).map (fun (g : ℤ) => (g : ℚ)))

/-- `period = _nearest_period(gap_med)`. -/
def drPeriod (dates : List ℤ) (amounts : List ℚ) : ℤ :=
  nearest_period (drGapMed dates amounts)

/-- `tol = 3 if period in (7, 14, 28, 30, 31) else 10`. -/
def drTol (dates : List ℤ) (amounts : List ℚ) : ℤ :=
  let period := drPeriod dates amounts
  if period = 7 ∨ period = 14 ∨ period = 28 ∨ period = 30 ∨ period = 31 then 3 else 10

/-- `gap_consistency = len(inliers) / max(1, len(gaps))`. -/
def drGapConsistency (dates : List ℤ) (amounts : List ℚ) : ℚ :=
  let gaps := drGaps dates amounts
  let inliers := gaps.filter (fun g =>
    decide (|g - drPeriod dates amounts| ≤ drTol dates amounts))
  (inliers.length : ℚ) / ((max 1 gaps.length : ℕ) : ℚ)

/-- `amt_stability = 1.0 / (1.0 + (a_mad / max(1e-6, abs(a_med) + 1e-6)))`. -/
def drAmtStability (dates : List ℤ) (amounts : List ℚ) : ℚ :=
  let a_med := median (drAmounts dates amounts)
  let a_mad := mad (drAmounts dates amounts)
  1 / (1 + a_mad / max (1 / 1000000) (|a_med| + 1 / 1000000))

/-- `confidence = float(max(0.0, min(1.0, 0.55 * gap_consistency + 0.45 * amt_stability)))`. -/
def drConfidence (dates : List ℤ) (amounts : List ℚ) : ℚ :=
  max 0 (min 1 ((55 / 100) * drGapConsistency dates amounts
    + (45 / 100) * drAmtStability dates amounts))

/-- The `SeriesResult` built at the end of `detect_recurring`;
`next_expected = ds[-1] + timedelta(days=int(period))`. -/
def drResult (dates : List ℤ) (amounts : List ℚ) : SeriesResult :=
  { period_days := drPeriod dates amounts
    amount_median := median (drAmounts dates amounts)
    amount_mad := mad (drAmounts dates amounts)
    gap_median := drGapMed dates amounts
    gap_mad := mad ((drGaps dates amounts).map (fun (g : ℤ) => (g : ℚ)))
    confidence := drConfidence dates amounts
    next_expected_at := (drDates dates amounts).getLastD 0 + drPeriod dates amounts * 86400 }

def detect_recurring (dates : List ℤ) (amounts : List ℚ)
    (min_points : ℕ := 3) : Option SeriesResult :=
  if dates.length < min_points then none
  else if (drGaps dates amounts).isEmpty then none
  else some (drResult dates amounts)

/-! ### Spec-side "nearest candidate" and its agreement with the code -/

/-- Spec-side formulation: the first-listed candidate whose absolute
difference to `days` is minimal over all candidates. -/
def nearestSpecPeriod (days : ℚ) : ℤ :=
  (CANDIDATE_PERIODS.find? (fun (c : ℤ) =>
    CANDIDATE_PERIODS.all (fun (q : ℤ) => decide (|(c : ℚ) - days| ≤ |(q : ℚ) - days|)))).getD 0

/-! ### Basic structure of `detect_recurring` -/

/-- One row of the `recurring_series` table as written by `recompute`
(engine.py lines 70–91): merchants with fewer than 3 transactions are
skipped, otherwise `detect_recurring(..., min_points=3)` runs and a
detected series is upserted with `status="active"`.  `tx` is the merchant's
(timestamp, amount) list in chronological order (the code reverses the
descending store query). -/
structure RecurringSeriesRow where
  period_days : ℤ
  amount_median : ℚ
  amount_mad : ℚ
  gap_median : ℚ
  gap_mad : ℚ
  confidence : ℚ
  next_expected_at : ℤ
  status : String
deriving DecidableEq

def merchantSeriesRow (tx : List (ℤ × ℚ)) : Option RecurringSeriesRow :=
  if tx.length < 3 then none
  else
    match detect_recurring (tx.map Prod.fst) (tx.map Prod.snd) 3 with
    | none => none
    | some res =>
        some { period_days := res.period_days, amount_median := res.amount_median,
               amount_mad := res.amount_mad, gap_median := res.gap_median,
               gap_mad := res.gap_mad, confidence := res.confidence,
               next_expected_at := res.next_expected_at, status := "active" }

/-! ### Claim C1: the postconditions of `detect_recurring` -/

/-- Sort of a timestamp list (spec-side view of the time ordering). -/
def sortZ (l : List ℤ) : List ℤ := sortBy (fun a b : ℤ => decide (a ≤ b)) l

/-- Maximum of a list of timestamps ("the latest observation"). -/
def listMaxZ : List ℤ → ℤ
  | [] => 0
  | a :: t => t.foldl max a

/-- `clamp(x, 0, 1)` as used by the spec for confidence. -/
def specClamp (x : ℚ) : ℚ := max 0 (min 1 x)

/-- Spec-side tolerance: "3 days for periods 7/14/28/30/31, 10 days for 365". -/
def specTol (p : ℤ) : ℤ := if p = 365 then 10 else 3

/-- Spec-side gap consistency: the fraction of gaps within tolerance of the
period. -/
def specGapConsistency (gaps : List ℤ) (p : ℤ) : ℚ :=
  ((gaps.filter (fun g => decide (|g - p| ≤ specTol p))).length : ℚ) / (gaps.length : ℚ)

/-! ### Claim C5: monthly observations

"Monthly-spaced" is formalised through the calendar: the consecutive
whole-day gaps are the lengths of consecutive calendar months, i.e.
`monthDays febLen (m0 + i)` for a run of month indices starting at `m0`
(month index 0 = a January), where `febLen y ∈ {28, 29}` is the length of
the February of year `y`. -/

/-- Length in days of calendar month `m` (months numbered consecutively
from a January); `febLen` gives each year's February length. -/
def monthDays (febLen : ℕ → ℕ) (m : ℕ) : ℕ :=
  if m % 12 = 1 then febLen (m / 12)
  else if m % 12 = 3 ∨ m % 12 = 5 ∨ m % 12 = 8 ∨ m % 12 = 10 then 30
  else 31

/-! ### Claim C7: per-merchant amount anomalies
(`src/subsentry/core/anomalies.py`, `merchant_anomalies`)

`defaultdict` grouping is embedded as: keys in first-occurrence order, each
group being the in-order sublist of rows with that merchant. -/

structure AnomRow where
  txn_id : ℕ
  posted_at : ℤ
  amount : ℚ
  merchant : String
deriving DecidableEq

structure AnomFlag where
  merchant : String
  txn_id : ℕ
  amount : ℚ
  z : ℚ
  baseline_median : ℚ
  baseline_mad : ℚ
deriving DecidableEq

/-- The group keys of `defaultdict` insertion, in first-occurrence order. -/
def merchantKeys (rows : List AnomRow) : List String :=
  (rows.map (fun r => r.merchant)).foldl
    (fun acc m => if m ∈ acc then acc else acc ++ [m]) []

/-- The flags the `for m, rows in by_m.items()` loop body produces for one
merchant key. -/
def merchantFlagsFor (rows : List AnomRow) (z_thresh : ℚ) (m : String) : List AnomFlag :=
  let g := rows.filter (fun r => r.merchant == m)
  if g.length < 8 then []
  else
    let amounts := g.map (fun r => |r.amount|)
    let med := median amounts
    let m_mad := mad amounts
    (g.take 80).filterMap (fun r =>
      let z := robust_z |r.amount| med m_mad
      if z_thresh ≤ |z| then
        some { merchant := m, txn_id := r.txn_id, amount := r.amount, z := z,
               baseline_median := med, baseline_mad := m_mad }
      else none)

def merchant_anomalies (rows : List AnomRow) (z_thresh : ℚ := 4) : List AnomFlag :=
  (merchantKeys rows).flatMap (merchantFlagsFor rows z_thresh)

/-- Spec-side description of which transactions of merchant `m` are
flagged: none unless the merchant's group has at least 8 transactions;
otherwise exactly those among the first 80 of the group (stored order)
whose robust z-score of `|amount|` against the group's median/MAD baseline
of absolute amounts satisfies `|z| ≥ z_thresh`. -/
def specMerchantFlags (rows : List AnomRow) (z_thresh : ℚ) (m : String) : List AnomFlag :=
  let g := rows.filter (fun r => r.merchant == m)
  let amounts := g.map (fun r => |r.amount|)
  let med := median amounts
  let m_mad := mad amounts
  if 8 ≤ g.length then
    ((g.take 80).filter
        (fun r => decide (z_thresh ≤ |robust_z |r.amount| med m_mad|))).map
      (fun r => { merchant := m, txn_id := r.txn_id, amount := r.amount,
                  z := robust_z |r.amount| med m_mad,
                  baseline_median := med, baseline_mad := m_mad })
  else []

/-! ### Claim C2: per-series event generation
(`src/subsentry/core/engine.py`, `_events_for_series`)

One merchant's transactions in chronological order; the evidence payloads
are reduced to the fields the events are identified by. -/

structure Txn where
  id : ℕ
  posted_at : ℤ
  amount : ℚ
deriving DecidableEq

inductive EventEvidence where
  | newSubscription (period_days : ℤ) (confidence : ℚ) : EventEvidence
  | priceChange (baseline last : ℚ) : EventEvidence
  | duplicatePair (a b : Txn) : EventEvidence
deriving DecidableEq

structure MerchantEvent where
  type : String
  severity : String
  txn_id : ℕ
  evidence : EventEvidence
deriving DecidableEq

/-- Python `l[-n:]`. -/
def lastN {α : Type} (n : ℕ) (l : List α) : List α := l.drop (l.length - n)

/-- The "New subscription detected" check (engine.py 100–115). -/
def newSubEvents (now : ℤ) (res : SeriesResult) (tx : List Txn) : List MerchantEvent :=
  match tx.getLast? with
  | none => []
  | some last =>
      if 3 ≤ tx.length ∧ now - last.posted_at ≤ 90 * 86400 then
        [{ type := "new_subscription_detected", severity := "info", txn_id := last.id,
           evidence := .newSubscription res.period_days res.confidence }]
      else []

/-- The "Price change" check (engine.py 117–136): the last amount against
the median of the previous up-to-6 amounts. -/
def priceChangeEvents (tx : List Txn) : List MerchantEvent :=
  match tx.getLast? with
  | none => []
  | some last =>
      if 5 ≤ tx.length then
        let prev := (lastN 6 tx.dropLast).map (fun t => t.amount)
        let base := median prev
        if max (10 / 100 * |base|) 2 < |last.amount - base| then
          [{ type := "price_change", severity := "warn", txn_id := last.id,
             evidence := .priceChange base last.amount }]
        else []
      else []

/-- The "Duplicate billing" scan (engine.py 139–155): the last up-to-10
consecutive pairs; a pair is flagged when the timestamps are within 36
hours and the amounts differ by at most `max(2% of |a.amount|, 1.0)`. -/
def duplicateEvents (tx : List Txn) : List MerchantEvent :=
  (List.range' (tx.length - 10) (tx.length - 1 - (tx.length - 10))).filterMap (fun i =>
    match tx.get? i, tx.get? (i + 1) with
    | some a, some b =>
        if |b.posted_at - a.posted_at| ≤ 36 * 3600 ∧
            |b.amount - a.amount| ≤ max (2 / 100 * |a.amount|) 1 then
          some { type := "possible_duplicate", severity := "warn", txn_id := b.id,
                 evidence := .duplicatePair a b }
        else none
    | _, _ => none)

/-- `_events_for_series` for one series row, in emission order. -/
def eventsForSeriesRow (now : ℤ) (res : SeriesResult) (tx : List Txn) :
    List MerchantEvent :=
  newSubEvents now res tx ++ priceChangeEvents tx ++ duplicateEvents tx

/-! ### Claim C3: recompute clears all events, including dismissed ones
(`src/subsentry/db/repo.py` `clear_recurring_and_events`, `add_event`;
`src/subsentry/core/engine.py` `recompute`) -/

structure EventRow where
  id : ℕ
  type : String
  severity : String
  is_dismissed : Bool
deriving DecidableEq

structure SeriesRowDB where
  id : ℕ
  merchant_id : ℕ
deriving DecidableEq

structure LedgerDB where
  events : List EventRow
  series : List SeriesRowDB
  next_event_id : ℕ
deriving DecidableEq

/-- `Repo.add_event` (repo.py 244–258): inserts a new row with a fresh id
and `is_dismissed=False`. -/
def add_event (db : LedgerDB) (ty sev : String) : LedgerDB :=
  { db with
    events := db.events
      ++ [{ id := db.next_event_id, type := ty, severity := sev, is_dismissed := false }],
    next_event_id := db.next_event_id + 1 }

/-- `Repo.clear_recurring_and_events` (repo.py 216–219): deletes every
`Event` row and every `RecurringSeries` row, with no dismissed-filter. -/
def clear_recurring_and_events (db : LedgerDB) : LedgerDB :=
  { db with events := [], series := [] }

/-- The event lifecycle of `recompute` (engine.py 64–96): clear all derived
rows first, then regenerate events through `add_event`; `gen` abstracts the
(type, severity) payloads the detectors emit during the run. -/
def recomputeEvents (db : LedgerDB) (gen : List (String × String)) : LedgerDB :=
  gen.foldl (fun d p => add_event d p.1 p.2) (clear_recurring_and_events db)

/-! ### Claim C6: the merchant normalizer
(`src/subsentry/core/normalize.py`)

The regex pipeline of `clean_merchant` is embedded over `List Char`
(ASCII):
  * `PAYPAL_PREFIX = r"(?i)\bPAYPAL\b\s*\*\s*"` — global `re.sub`, scanning
    left to right with word boundaries; the `\s*\*\s*` part matches a
    (possibly empty) whitespace run, a mandatory asterisk, then another
    whitespace run (backtracking cannot help, since no whitespace char is
    an asterisk);
  * the character class `[^A-Z0-9\s&.-]` replacement;
  * `CARD_SUFFIX = r"(?i)\s*(?:\*+\d{2,6}|CARD\s*\d{2,6})\s*$"` — an
    end-anchored pattern, so `re.sub` removes from the leftmost position
    where the pattern matches through to the end, if any;
  * `.replace(".COM", "")` — left-to-right non-overlapping removal;
  * whitespace collapsing and strip. -/

/-- Python's `\s` (ASCII): space, tab, newline, carriage return, vertical
tab, form feed. -/
def pySpace (c : Char) : Bool :=
  c == ' ' || c == '\t' || c == '\n' || c == '\r' || c == '\x0b' || c == '\x0c'

/-- Python `str.strip()`. -/
def pyStrip (s : List Char) : List Char :=
  ((s.dropWhile pySpace).reverse.dropWhile pySpace).reverse

/-- Python `str.upper()` (ASCII). -/
def pyUpper (s : List Char) : List Char := s.map Char.toUpper

/-- Regex `\w` (ASCII). -/
def isWordChar (c : Char) : Bool := c.isAlphanum || c == '_'

/-- Try to match `PAYPAL\b\s*\*\s*` at the head of `s` (the `\b` before
`PAYPAL` is the caller's responsibility); returns the rest after the
match. -/
def matchPaypal (s : List Char) : Option (List Char) :=
  if ['P', 'A', 'Y', 'P', 'A', 'L'].isPrefixOf s then
    match s.drop 6 with
    | [] => none
    | c :: _ =>
        if isWordChar c then none
        else
          match (s.drop 6).dropWhile pySpace with
          | '*' :: t2 => some (t2.dropWhile pySpace)
          | _ => none
  else none

/-- The `re.sub` scan for `PAYPAL_PREFIX`: `prevWord` tracks whether the
previous character is a word character (for `\b`); `fuel ≥ s.length`
guarantees full execution. -/
def paypalSubAux (prevWord : Bool) : ℕ → List Char → List Char
  | 0, s => s
  | _ + 1, [] => []
  | fuel + 1, c :: t =>
      if prevWord then c :: paypalSubAux (isWordChar c) fuel t
      else
        match matchPaypal (c :: t) with
        | some rest => paypalSubAux false fuel rest
        | none => c :: paypalSubAux (isWordChar c) fuel t

def PAYPAL_PREFIX_sub (s : List Char) : List Char := paypalSubAux false s.length s

/-- The class `[A-Z0-9\s&.-]` kept by step 3 of `clean_merchant`. -/
def keepChar (c : Char) : Bool :=
  ('A' ≤ c && c ≤ 'Z') || ('0' ≤ c && c ≤ '9') || pySpace c
    || c == '&' || c == '.' || c == '-'

def replaceNonAllowed (s : List Char) : List Char :=
  s.map (fun c => if keepChar c then c else ' ')

/-- Does `\s*(?:\*+\d{2,6}|CARD\s*\d{2,6})\s*$` match all of `t`? -/
def cardSuffixAt (t : List Char) : Bool :=
  let t1 := t.dropWhile pySpace
  let b1 :=
    let stars := t1.takeWhile (fun c => c == '*')
    let t2 := t1.dropWhile (fun c => c == '*')
    let ds := t2.takeWhile Char.isDigit
    let t3 := t2.dropWhile Char.isDigit
    decide (1 ≤ stars.length) && decide (2 ≤ ds.length) && decide (ds.length ≤ 6)
      && (t3.dropWhile pySpace).isEmpty
  let b2 :=
    if ['C', 'A', 'R', 'D'].isPrefixOf t1 then
      let t2 := (t1.drop 4).dropWhile pySpace
      let ds := t2.takeWhile Char.isDigit
      let t3 := t2.dropWhile Char.isDigit
      decide (2 ≤ ds.length) && decide (ds.length ≤ 6) && (t3.dropWhile pySpace).isEmpty
    else false
  b1 || b2

/-- `CARD_SUFFIX.sub("", s)`: remove from the leftmost position where the
end-anchored suffix pattern matches. -/
def CARD_SUFFIX_sub (s : List Char) : List Char :=
  match (List.range (s.length + 1)).find? (fun i => cardSuffixAt (s.drop i)) with
  | some i => s.take i
  | none => s

/-- `s.replace(".COM", "")`: left-to-right non-overlapping removal;
`fuel ≥ s.length` guarantees full execution. -/
def replaceComAux : ℕ → List Char → List Char
  | 0, s => s
  | _ + 1, [] => []
  | fuel + 1, c :: t =>
      if c == '.' && ['C', 'O', 'M'].isPrefixOf t then replaceComAux fuel (t.drop 3)
      else c :: replaceComAux fuel t

def replaceCom (s : List Char) : List Char := replaceComAux s.length s

/-- `MULTISPACE.sub(" ", s)`: collapse each whitespace run to one space. -/
def squeezeWsAux (prevSpace : Bool) : List Char → List Char
  | [] => []
  | c :: t =>
      if pySpace c then
        if prevSpace then squeezeWsAux true t else ' ' :: squeezeWsAux true t
      else c :: squeezeWsAux false t

def squeezeWs (s : List Char) : List Char := squeezeWsAux false s

/-- `clean_merchant` over character lists. -/
def cleanChars (raw : List Char) : List Char :=
  let s0 := pyUpper (pyStrip raw)
  let s1 := PAYPAL_PREFIX_sub s0
  let s2 := replaceNonAllowed s1
  let s3 := CARD_SUFFIX_sub s2
  let s4 := replaceCom s3
  pyStrip (squeezeWs s4)

def clean_merchant (raw : String) : String := String.mk (cleanChars raw.data)

/-- Does `s` contain `pat` as a contiguous substring (Python `in`)? -/
def containsSeq (pat s : List Char) : Bool :=
  (List.range (s.length + 1)).any (fun i => pat.isPrefixOf (s.drop i))

/-- `canonical_hint` over character lists. -/
def canonical_hint (cleaned : List Char) : List Char :=
  if containsSeq ['N', 'E', 'T', 'F', 'L', 'I', 'X'] cleaned then
    ['N', 'E', 'T', 'F', 'L', 'I', 'X']
  else if containsSeq ['S', 'P', 'O', 'T', 'I', 'F', 'Y'] cleaned then
    ['S', 'P', 'O', 'T', 'I', 'F', 'Y']
  else if containsSeq ['A', 'M', 'A', 'Z', 'O', 'N'] cleaned then
    ['A', 'M', 'A', 'Z', 'O', 'N']
  else cleaned.take 255

/-- "Begins with the word PAYPAL followed by whitespace" (the claim's
asterisk-free form of the prefix). -/
def paypalWsLead (s : List Char) : Bool :=
  ['P', 'A', 'Y', 'P', 'A', 'L'].isPrefixOf s &&
    (match s.drop 6 with
     | c :: _ => pySpace c
     | [] => false)

/-- "Begins with PAYPAL, optional whitespace, then an asterisk" (the form
`PAYPAL_PREFIX` actually requires). -/
def paypalStarLead (s : List Char) : Bool :=
  ['P', 'A', 'Y', 'P', 'A', 'L'].isPrefixOf s &&
    (((s.drop 6).dropWhile pySpace).head? == some '*')

/-! ### Claim C4: the merchant resolver
(`src/subsentry/core/engine.py`, `resolve_merchants`)

The fuzzy scorer (`rapidfuzz` `fuzz.ratio`) is an opaque deterministic
function parameter; `extractOne` keeps the first-encountered maximal
score.  `aliases` and the `merchants`/`merchant_names` variables are the
snapshot loaded before the loop; `get_or_create_merchant` consults the live
merchant table.  Each transaction row is read and written only by its own
loop iteration (the choice logic never reads other rows), so the loop is
embedded as a state-threading traversal that produces the updated rows,
the live merchant table, the next merchant id and the number of
assignment writes (`set_txn_merchant` calls). -/

structure MerchantRec where
  id : ℕ
  canonical_name : List Char
deriving DecidableEq

structure AliasRec where
  merchant_id : ℕ
  pattern : List Char
  pattern_type : String
deriving DecidableEq

structure TxnRec where
  id : ℕ
  description_raw : List Char
  merchant_id : Option ℕ
deriving DecidableEq

structure ResolveState where
  txns : List TxnRec
  merchants : List MerchantRec
  aliases : List AliasRec
  nextMerchantId : ℕ
deriving DecidableEq

/-- The alias loop: first alias whose (uppercased) pattern matches wins —
"contains" by substring, "exact" by equality. -/
def aliasChoice (aliases : List AliasRec) (cleaned : List Char) : Option ℕ :=
  (aliases.find? (fun a =>
    let pat := pyUpper a.pattern
    (a.pattern_type == "contains" && containsSeq pat cleaned)
      || (a.pattern_type == "exact" && pat == cleaned))).map (fun a => a.merchant_id)

/-- The hint-exact loop: first snapshot merchant whose canonical name
equals the hint. -/
def hintChoice (merchants : List MerchantRec) (hint : List Char) : Option ℕ :=
  (merchants.find? (fun m => m.canonical_name == hint)).map (fun m => m.id)

/-- `process.extractOne(hint, names, scorer=score)`: best (name, score),
first-listed maximum wins. -/
def extractOneScore (score : List Char → List Char → ℚ) (hint : List Char) :
    List (List Char) → Option (List Char × ℚ)
  | [] => none
  | n :: rest =>
      some (rest.foldl
        (fun best nm => if score hint best.1 < score hint nm then (nm, score hint nm) else best)
        (n, score hint n))

/-- The fuzzy branch: accept the best snapshot name when its score reaches
the threshold; `merchant_names.index(match[0])` is the first merchant with
that name. -/
def fuzzyChoice (score : List Char → List Char → ℚ) (thr : ℚ)
    (merchants : List MerchantRec) (hint : List Char) : Option ℕ :=
  match extractOneScore score hint (merchants.map (fun m => m.canonical_name)) with
  | none => none
  | some (nm, sc) =>
      if thr ≤ sc then
        match merchants.find? (fun m => m.canonical_name == nm) with
        | some m => some m.id
        | none => none
      else none

/-- The choice made from the snapshot tables alone (alias, hint-exact,
fuzzy) — everything before `get_or_create_merchant`. -/
def chooseStatic (score : List Char → List Char → ℚ) (thr : ℚ)
    (aliases : List AliasRec) (snapshot : List MerchantRec)
    (cleaned : List Char) : Option ℕ :=
  match aliasChoice aliases cleaned with
  | some i => some i
  | none =>
      let hint := canonical_hint cleaned
      match hintChoice snapshot hint with
      | some i => some i
      | none => fuzzyChoice score thr snapshot hint

/-- `get_or_create_merchant` canonicalises with `strip().upper()`. -/
def canonName (name : List Char) : List Char := pyUpper (pyStrip name)

def resolveLoop (score : List Char → List Char → ℚ) (thr : ℚ)
    (aliases : List AliasRec) (snapshot : List MerchantRec) :
    List TxnRec → List MerchantRec → ℕ → ℕ → List TxnRec × List MerchantRec × ℕ × ℕ
  | [], ms, nid, w => ([], ms, nid, w)
  | t :: rest, ms, nid, w =>
      let cleaned := cleanChars t.description_raw
      let res : Option ℕ × List MerchantRec × ℕ :=
        match chooseStatic score thr aliases snapshot cleaned with
        | some i => (some i, ms, nid)
        | none =>
            if cleaned.isEmpty then (none, ms, nid)
            else
              let canon := canonName (canonical_hint cleaned)
              match ms.find? (fun m => m.canonical_name == canon) with
              | some m => (some m.id, ms, nid)
              | none => (some nid, ms ++ [{ id := nid, canonical_name := canon }], nid + 1)
      let t2 := if t.merchant_id = res.1 then t else { t with merchant_id := res.1 }
      let w2 := if t.merchant_id = res.1 then w else w + 1
      let out := resolveLoop score thr aliases snapshot rest res.2.1 res.2.2 w2
      (t2 :: out.1, out.2)

def resolve_merchants (score : List Char → List Char → ℚ) (s : ResolveState)
    (fuzzy_threshold : ℚ := 92) : ResolveState × ℕ :=
  let out := resolveLoop score fuzzy_threshold s.aliases s.merchants
    s.txns s.merchants s.nextMerchantId 0
  ({ txns := out.1, merchants := out.2.1, aliases := s.aliases,
     nextMerchantId := out.2.2.1 }, out.2.2.2)

theorem insertSorted_perm {α : Type} (le : α → α → Bool) (a : α) (l : List α) :
    List.Perm (insertSorted le a l) (a :: l) := by
  induction l with
  | nil => simp [insertSorted]
  | cons b t ih =>
    by_cases h : le a b = true
    · simp [insertSorted, h]
    · simp only [insertSorted, h]
      rw [if_neg (by simp [h])]
      exact (List.Perm.cons b ih).trans (List.Perm.swap a b t)

theorem sortBy_perm {α : Type} (le : α → α → Bool) (l : List α) :
    List.Perm (sortBy le l) l := by
  induction l with
  | nil => simp [sortBy]
  | cons a t ih =>
    exact (insertSorted_perm le a (sortBy le t)).trans (List.Perm.cons a ih)

theorem insertSorted_sorted {α : Type} (le : α → α → Bool)
    (hle : ∀ x y, le x y = false → le y x = true)
    (htr : ∀ x y z, le x y = true → le y z = true → le x z = true)
    (a : α) (l : List α) (hl : l.Pairwise (fun x y => le x y = true)) :
    (insertSorted le a l).Pairwise (fun x y => le x y = true) := by
  induction l with
  | nil => simp [insertSorted]
  | cons b t ih =>
    rcases List.pairwise_cons.mp hl with ⟨hb, ht⟩
    by_cases h : le a b = true
    · simp only [insertSorted, if_pos h]
      refine List.pairwise_cons.mpr ⟨?_, hl⟩
      intro x hx
      rcases List.mem_cons.mp hx with hx | hx
      · subst hx; exact h
      · exact htr a b x h (hb x hx)
    · simp only [insertSorted, h]
      rw [if_neg (by simp [h])]
      refine List.pairwise_cons.mpr ⟨?_, ih ht⟩
      intro x hx
      have hx' := (insertSorted_perm le a t).mem_iff.mp hx
      rcases List.mem_cons.mp hx' with hx2 | hx2
      · have hab : le a b = false := by revert h; cases le a b <;> simp
        rw [hx2]
        exact hle a b hab
      · exact hb x hx2

theorem sortBy_sorted {α : Type} (le : α → α → Bool)
    (hle : ∀ x y, le x y = false → le y x = true)
    (htr : ∀ x y z, le x y = true → le y z = true → le x z = true)
    (l : List α) :
    (sortBy le l).Pairwise (fun x y => le x y = true) := by
  induction l with
  | nil => simp [sortBy]
  | cons a t ih => exact insertSorted_sorted le hle htr a _ ih

/-- If the input is already sorted by `le`, insertion sort returns it
unchanged (this is how Python's stable `sorted` behaves on sorted input). -/
theorem sortBy_eq_self_of_sorted {α : Type} (le : α → α → Bool)
    (l : List α) (hl : l.Pairwise (fun x y => le x y = true)) :
    sortBy le l = l := by
  induction l with
  | nil => rfl
  | cons a t ih =>
    rcases List.pairwise_cons.mp hl with ⟨ha, ht⟩
    rw [sortBy, ih ht]
    cases t with
    | nil => rfl
    | cons b u => simp [insertSorted, ha b (by simp)]

theorem sortQ_perm (l : List ℚ) : List.Perm (sortQ l) l := sortBy_perm _ l

theorem sortQ_sorted (l : List ℚ) :
    (sortQ l).Pairwise (fun x y : ℚ => decide (x ≤ y) = true) := by
  refine sortBy_sorted _ ?_ ?_ l
  · intro x y h
    simp only [decide_eq_false_iff_not, not_le] at h
    simpa using le_of_lt h
  · intro x y z hxy hyz
    simp only [decide_eq_true_eq] at hxy hyz ⊢
    exact le_trans hxy hyz

theorem sortQ_length (l : List ℚ) : (sortQ l).length = l.length :=
  (sortQ_perm l).length_eq

theorem sortQ_mem {l : List ℚ} {x : ℚ} (h : x ∈ sortQ l) : x ∈ l :=
  (sortQ_perm l).mem_iff.mp h

/-- The `n/2`-indexed entries used by `median` are members of the list. -/
theorem median_mem_getD {l : List ℚ} (k : ℕ) (hk : k < (sortQ l).length) :
    (sortQ l).getD k 0 ∈ l := by
  have : (sortQ l).getD k 0 ∈ sortQ l := by
    rw [List.getD_eq_getElem?_getD, List.getElem?_eq_getElem hk]
    exact List.getElem_mem hk
  exact sortQ_mem this

theorem foldl_min_le {α : Type} [LinearOrder α] (t : List α) (a : α) :
    t.foldl min a ≤ a ∧ ∀ x ∈ t, t.foldl min a ≤ x := by
  induction t generalizing a with
  | nil => simp
  | cons b u ih =>
    rcases ih (min a b) with ⟨h1, h2⟩
    refine ⟨le_trans h1 (min_le_left a b), ?_⟩
    intro x hx
    rcases List.mem_cons.mp hx with hx | hx
    · rw [hx]
      exact le_trans h1 (min_le_right a b)
    · exact h2 x hx

theorem le_foldl_max {α : Type} [LinearOrder α] (t : List α) (a : α) :
    a ≤ t.foldl max a ∧ ∀ x ∈ t, x ≤ t.foldl max a := by
  induction t generalizing a with
  | nil => simp
  | cons b u ih =>
    rcases ih (max a b) with ⟨h1, h2⟩
    refine ⟨le_trans (le_max_left a b) h1, ?_⟩
    intro x hx
    rcases List.mem_cons.mp hx with hx | hx
    · rw [hx]
      exact le_trans (le_max_right a b) h1
    · exact h2 x hx

theorem listMin_le_of_mem {l : List ℚ} {x : ℚ} (hx : x ∈ l) : listMin l ≤ x := by
  cases l with
  | nil => cases hx
  | cons a t =>
    rcases List.mem_cons.mp hx with h | h
    · rw [h]
      simpa [listMin] using (foldl_min_le t a).1
    · simpa [listMin] using (foldl_min_le t a).2 x h

theorem le_listMax_of_mem {l : List ℚ} {x : ℚ} (hx : x ∈ l) : x ≤ listMax l := by
  cases l with
  | nil => cases hx
  | cons a t =>
    rcases List.mem_cons.mp hx with h | h
    · rw [h]
      simpa [listMax] using (le_foldl_max t a).1
    · simpa [listMax] using (le_foldl_max t a).2 x h

theorem median_between {l : List ℚ} (hl : l ≠ []) :
    listMin l ≤ median l ∧ median l ≤ listMax l := by
  have hne : l.isEmpty = false := by
    cases l with
    | nil => exact absurd rfl hl
    | cons a t => rfl
  have hn : 0 < (sortQ l).length := by
    rw [sortQ_length]
    cases l with
    | nil => exact absurd rfl hl
    | cons a t => simp
  have hhalf : (sortQ l).length / 2 < (sortQ l).length := Nat.div_lt_self hn one_lt_two
  have hhalf' : (sortQ l).length / 2 - 1 < (sortQ l).length :=
    lt_of_le_of_lt (Nat.sub_le _ _) hhalf
  have hm1 := median_mem_getD ((sortQ l).length / 2) hhalf
  have hm2 := median_mem_getD ((sortQ l).length / 2 - 1) hhalf'
  rw [median, if_neg (by simp [hne])]
  by_cases hpar : (sortQ l).length % 2 = 1
  · rw [if_pos hpar]
    exact ⟨listMin_le_of_mem hm1, le_listMax_of_mem hm1⟩
  · rw [if_neg hpar]
    constructor
    · have h1 := listMin_le_of_mem hm2
      have h2 := listMin_le_of_mem hm1
      linarith
    · have h1 := le_listMax_of_mem hm2
      have h2 := le_listMax_of_mem hm1
      linarith

/-- The median of a non-empty constant list is the constant. -/
theorem median_const {l : List ℚ} {c : ℚ} (hl : l ≠ [])
    (hc : ∀ x ∈ l, x = c) : median l = c := by
  have hne : l.isEmpty = false := by
    cases l with
    | nil => exact absurd rfl hl
    | cons a t => rfl
  have hn : 0 < (sortQ l).length := by
    rw [sortQ_length]
    cases l with
    | nil => exact absurd rfl hl
    | cons a t => simp
  have hhalf : (sortQ l).length / 2 < (sortQ l).length := Nat.div_lt_self hn one_lt_two
  have hhalf' : (sortQ l).length / 2 - 1 < (sortQ l).length :=
    lt_of_le_of_lt (Nat.sub_le _ _) hhalf
  have hm1 := hc _ (median_mem_getD ((sortQ l).length / 2) hhalf)
  have hm2 := hc _ (median_mem_getD ((sortQ l).length / 2 - 1) hhalf')
  rw [median, if_neg (by simp [hne])]
  by_cases hpar : (sortQ l).length % 2 = 1
  · rw [if_pos hpar]
    exact hm1
  · rw [if_neg hpar, hm1, hm2]
    ring

/-- The scaled MAD of a non-empty constant list is exactly 0 (for any scale). -/
theorem mad_const {l : List ℚ} {c : ℚ} (hl : l ≠ [])
    (hc : ∀ x ∈ l, x = c) (scale : ℚ) : mad l scale = 0 := by
  have hne : l.isEmpty = false := by
    cases l with
    | nil => exact absurd rfl hl
    | cons a t => rfl
  rw [mad, if_neg (by simp [hne])]
  have hmap : ∀ y ∈ l.map (fun v => |v - median l|), y = 0 := by
    intro y hy
    rcases List.mem_map.mp hy with ⟨v, hv, rfl⟩
    rw [hc v hv, median_const hl hc]
    simp
  have hmapne : l.map (fun v => |v - median l|) ≠ [] := by
    cases l with
    | nil => exact absurd rfl hl
    | cons a t => simp
  show (median (l.map (fun v => |v - median l|))) * scale = 0
  rw [median_const (c := 0) hmapne hmap]
  ring

/-! ### Closed form of `nearest_period` -/

theorem abs_sub_le_of_sq {x y d : ℚ} (h : (x - d) ^ 2 ≤ (y - d) ^ 2) :
    |x - d| ≤ |y - d| := by
  nlinarith [abs_nonneg (x - d), abs_nonneg (y - d), sq_abs (x - d), sq_abs (y - d)]

theorem abs_sub_lt_of_sq {x y d : ℚ} (h : (x - d) ^ 2 < (y - d) ^ 2) :
    |x - d| < |y - d| := by
  nlinarith [abs_nonneg (x - d), abs_nonneg (y - d), sq_abs (x - d), sq_abs (y - d)]

theorem npStep_keep {d : ℚ} {b p : ℤ} (h : |(b : ℚ) - d| ≤ |(p : ℚ) - d|) :
    npStep d b p = b :=
  if_neg (not_lt.mpr h)

theorem npStep_new {d : ℚ} {b p : ℤ} (h : |(p : ℚ) - d| < |(b : ℚ) - d|) :
    npStep d b p = p :=
  if_pos h

theorem nearest_period_closed (d : ℚ) :
    nearest_period d =
      if d ≤ 21 / 2 then 7
      else if d ≤ 21 then 14
      else if d ≤ 29 then 28
      else if d ≤ 61 / 2 then 30
      else if d ≤ 198 then 31
      else 365 := by
  by_cases h1 : d ≤ 21 / 2
  · have k14 : npStep d 7 14 = 7 := npStep_keep (abs_sub_le_of_sq (by push_cast; nlinarith))
    have k28 : npStep d 7 28 = 7 := npStep_keep (abs_sub_le_of_sq (by push_cast; nlinarith))
    have k30 : npStep d 7 30 = 7 := npStep_keep (abs_sub_le_of_sq (by push_cast; nlinarith))
    have k31 : npStep d 7 31 = 7 := npStep_keep (abs_sub_le_of_sq (by push_cast; nlinarith))
    have k365 : npStep d 7 365 = 7 := npStep_keep (abs_sub_le_of_sq (by push_cast; nlinarith))
    simp [nearest_period, CANDIDATE_PERIODS, k14, k28, k30, k31, k365, h1]
  · by_cases h2 : d ≤ 21
    · have n14 : npStep d 7 14 = 14 := npStep_new (abs_sub_lt_of_sq (by push_cast; nlinarith))
      have k28 : npStep d 14 28 = 14 := npStep_keep (abs_sub_le_of_sq (by push_cast; nlinarith))
      have k30 : npStep d 14 30 = 14 := npStep_keep (abs_sub_le_of_sq (by push_cast; nlinarith))
      have k31 : npStep d 14 31 = 14 := npStep_keep (abs_sub_le_of_sq (by push_cast; nlinarith))
      have k365 : npStep d 14 365 = 14 := npStep_keep (abs_sub_le_of_sq (by push_cast; nlinarith))
      simp [nearest_period, CANDIDATE_PERIODS, n14, k28, k30, k31, k365, h1, h2]
    · by_cases h3 : d ≤ 29
      · have n14 : npStep d 7 14 = 14 := npStep_new (abs_sub_lt_of_sq (by push_cast; nlinarith))
        have n28 : npStep d 14 28 = 28 := npStep_new (abs_sub_lt_of_sq (by push_cast; nlinarith))
        have k30 : npStep d 28 30 = 28 := npStep_keep (abs_sub_le_of_sq (by push_cast; nlinarith))
        have k31 : npStep d 28 31 = 28 := npStep_keep (abs_sub_le_of_sq (by push_cast; nlinarith))
        have k365 : npStep d 28 365 = 28 := npStep_keep (abs_sub_le_of_sq (by push_cast; nlinarith))
        simp [nearest_period, CANDIDATE_PERIODS, n14, n28, k30, k31, k365, h1, h2, h3]
      · by_cases h4 : d ≤ 61 / 2
        · have n14 : npStep d 7 14 = 14 := npStep_new (abs_sub_lt_of_sq (by push_cast; nlinarith))
          have n28 : npStep d 14 28 = 28 := npStep_new (abs_sub_lt_of_sq (by push_cast; nlinarith))
          have n30 : npStep d 28 30 = 30 := npStep_new (abs_sub_lt_of_sq (by push_cast; nlinarith))
          have k31 : npStep d 30 31 = 30 := npStep_keep (abs_sub_le_of_sq (by push_cast; nlinarith))
          have k365 : npStep d 30 365 = 30 := npStep_keep (abs_sub_le_of_sq (by push_cast; nlinarith))
          simp [nearest_period, CANDIDATE_PERIODS, n14, n28, n30, k31, k365, h1, h2, h3, h4]
        · by_cases h5 : d ≤ 198
          · have n14 : npStep d 7 14 = 14 := npStep_new (abs_sub_lt_of_sq (by push_cast; nlinarith))
            have n28 : npStep d 14 28 = 28 := npStep_new (abs_sub_lt_of_sq (by push_cast; nlinarith))
            have n30 : npStep d 28 30 = 30 := npStep_new (abs_sub_lt_of_sq (by push_cast; nlinarith))
            have n31 : npStep d 30 31 = 31 := npStep_new (abs_sub_lt_of_sq (by push_cast; nlinarith))
            have k365 : npStep d 31 365 = 31 := npStep_keep (abs_sub_le_of_sq (by push_cast; nlinarith))
            simp [nearest_period, CANDIDATE_PERIODS, n14, n28, n30, n31, k365, h1, h2, h3, h4, h5]
          · have n14 : npStep d 7 14 = 14 := npStep_new (abs_sub_lt_of_sq (by push_cast; nlinarith))
            have n28 : npStep d 14 28 = 28 := npStep_new (abs_sub_lt_of_sq (by push_cast; nlinarith))
            have n30 : npStep d 28 30 = 30 := npStep_new (abs_sub_lt_of_sq (by push_cast; nlinarith))
            have n31 : npStep d 30 31 = 31 := npStep_new (abs_sub_lt_of_sq (by push_cast; nlinarith))
            have n365 : npStep d 31 365 = 365 := npStep_new (abs_sub_lt_of_sq (by push_cast; nlinarith))
            simp [nearest_period, CANDIDATE_PERIODS, n14, n28, n30, n31, n365, h1, h2, h3, h4, h5]

theorem all_false_of_witness {d : ℚ} {c q : ℤ} {L : List ℤ} (hq : q ∈ L)
    (h : |(q : ℚ) - d| < |(c : ℚ) - d|) :
    (L.all fun x => decide (|(c : ℚ) - d| ≤ |(x : ℚ) - d|)) = false := by
  apply Bool.eq_false_iff.mpr
  intro hall
  rw [List.all_eq_true] at hall
  have hx := hall q hq
  simp only [decide_eq_true_eq] at hx
  linarith

theorem all_true_of_min {d : ℚ} {c : ℤ} {L : List ℤ}
    (h : ∀ q ∈ L, |(c : ℚ) - d| ≤ |(q : ℚ) - d|) :
    (L.all fun x => decide (|(c : ℚ) - d| ≤ |(x : ℚ) - d|)) = true := by
  rw [List.all_eq_true]
  intro q hq
  simp only [decide_eq_true_eq]
  exact h q hq

theorem nearestSpec_closed (d : ℚ) :
    nearestSpecPeriod d =
      if d ≤ 21 / 2 then 7
      else if d ≤ 21 then 14
      else if d ≤ 29 then 28
      else if d ≤ 61 / 2 then 30
      else if d ≤ 198 then 31
      else 365 := by
  by_cases h1 : d ≤ 21 / 2
  · have t7 := all_true_of_min (d := d) (c := 7) (L := ([7, 14, 28, 30, 31, 365] : List ℤ))
      (by intro q hq; fin_cases hq <;> (apply abs_sub_le_of_sq; push_cast; nlinarith))
    simp only [nearestSpecPeriod, CANDIDATE_PERIODS, t7, List.find?_cons_of_pos,
      Option.getD_some]
    simp [h1]
  · by_cases h2 : d ≤ 21
    · have f7 := all_false_of_witness (d := d) (c := 7) (q := 14)
        (show (14 : ℤ) ∈ ([7, 14, 28, 30, 31, 365] : List ℤ) by simp)
        (abs_sub_lt_of_sq (by push_cast; nlinarith))
      have t14 := all_true_of_min (d := d) (c := 14) (L := ([7, 14, 28, 30, 31, 365] : List ℤ))
        (by intro q hq; fin_cases hq <;> (apply abs_sub_le_of_sq; push_cast; nlinarith))
      simp only [nearestSpecPeriod, CANDIDATE_PERIODS, f7, t14, List.find?_cons_of_neg,
        List.find?_cons_of_pos, Bool.false_eq_true, not_false_eq_true, Option.getD_some]
      simp [h1, h2]
    · by_cases h3 : d ≤ 29
      · have f7 := all_false_of_witness (d := d) (c := 7) (q := 28)
          (show (28 : ℤ) ∈ ([7, 14, 28, 30, 31, 365] : List ℤ) by simp)
          (abs_sub_lt_of_sq (by push_cast; nlinarith))
        have f14 := all_false_of_witness (d := d) (c := 14) (q := 28)
          (show (28 : ℤ) ∈ ([7, 14, 28, 30, 31, 365] : List ℤ) by simp)
          (abs_sub_lt_of_sq (by push_cast; nlinarith))
        have t28 := all_true_of_min (d := d) (c := 28) (L := ([7, 14, 28, 30, 31, 365] : List ℤ))
          (by intro q hq; fin_cases hq <;> (apply abs_sub_le_of_sq; push_cast; nlinarith))
        simp only [nearestSpecPeriod, CANDIDATE_PERIODS, f7, f14, t28, List.find?_cons_of_neg,
          List.find?_cons_of_pos, Bool.false_eq_true, not_false_eq_true, Option.getD_some]
        simp [h1, h2, h3]
      · by_cases h4 : d ≤ 61 / 2
        · have f7 := all_false_of_witness (d := d) (c := 7) (q := 30)
            (show (30 : ℤ) ∈ ([7, 14, 28, 30, 31, 365] : List ℤ) by simp)
            (abs_sub_lt_of_sq (by push_cast; nlinarith))
          have f14 := all_false_of_witness (d := d) (c := 14) (q := 30)
            (show (30 : ℤ) ∈ ([7, 14, 28, 30, 31, 365] : List ℤ) by simp)
            (abs_sub_lt_of_sq (by push_cast; nlinarith))
          have f28 := all_false_of_witness (d := d) (c := 28) (q := 30)
            (show (30 : ℤ) ∈ ([7, 14, 28, 30, 31, 365] : List ℤ) by simp)
            (abs_sub_lt_of_sq (by push_cast; nlinarith))
          have t30 := all_true_of_min (d := d) (c := 30) (L := ([7, 14, 28, 30, 31, 365] : List ℤ))
            (by intro q hq; fin_cases hq <;> (apply abs_sub_le_of_sq; push_cast; nlinarith))
          simp only [nearestSpecPeriod, CANDIDATE_PERIODS, f7, f14, f28, t30,
            List.find?_cons_of_neg, List.find?_cons_of_pos, Bool.false_eq_true,
            not_false_eq_true, Option.getD_some]
          simp [h1, h2, h3, h4]
        · by_cases h5 : d ≤ 198
          · have f7 := all_false_of_witness (d := d) (c := 7) (q := 31)
              (show (31 : ℤ) ∈ ([7, 14, 28, 30, 31, 365] : List ℤ) by simp)
              (abs_sub_lt_of_sq (by push_cast; nlinarith))
            have f14 := all_false_of_witness (d := d) (c := 14) (q := 31)
              (show (31 : ℤ) ∈ ([7, 14, 28, 30, 31, 365] : List ℤ) by simp)
              (abs_sub_lt_of_sq (by push_cast; nlinarith))
            have f28 := all_false_of_witness (d := d) (c := 28) (q := 31)
              (show (31 : ℤ) ∈ ([7, 14, 28, 30, 31, 365] : List ℤ) by simp)
              (abs_sub_lt_of_sq (by push_cast; nlinarith))
            have f30 := all_false_of_witness (d := d) (c := 30) (q := 31)
              (show (31 : ℤ) ∈ ([7, 14, 28, 30, 31, 365] : List ℤ) by simp)
              (abs_sub_lt_of_sq (by push_cast; nlinarith))
            have t31 := all_true_of_min (d := d) (c := 31) (L := ([7, 14, 28, 30, 31, 365] : List ℤ))
              (by intro q hq; fin_cases hq <;> (apply abs_sub_le_of_sq; push_cast; nlinarith))
            simp only [nearestSpecPeriod, CANDIDATE_PERIODS, f7, f14, f28, f30, t31,
              List.find?_cons_of_neg, List.find?_cons_of_pos, Bool.false_eq_true,
              not_false_eq_true, Option.getD_some]
            simp [h1, h2, h3, h4, h5]
          · have f7 := all_false_of_witness (d := d) (c := 7) (q := 365)
              (show (365 : ℤ) ∈ ([7, 14, 28, 30, 31, 365] : List ℤ) by simp)
              (abs_sub_lt_of_sq (by push_cast; nlinarith))
            have f14 := all_false_of_witness (d := d) (c := 14) (q := 365)
              (show (365 : ℤ) ∈ ([7, 14, 28, 30, 31, 365] : List ℤ) by simp)
              (abs_sub_lt_of_sq (by push_cast; nlinarith))
            have f28 := all_false_of_witness (d := d) (c := 28) (q := 365)
              (show (365 : ℤ) ∈ ([7, 14, 28, 30, 31, 365] : List ℤ) by simp)
              (abs_sub_lt_of_sq (by push_cast; nlinarith))
            have f30 := all_false_of_witness (d := d) (c := 30) (q := 365)
              (show (365 : ℤ) ∈ ([7, 14, 28, 30, 31, 365] : List ℤ) by simp)
              (abs_sub_lt_of_sq (by push_cast; nlinarith))
            have f31 := all_false_of_witness (d := d) (c := 31) (q := 365)
              (show (365 : ℤ) ∈ ([7, 14, 28, 30, 31, 365] : List ℤ) by simp)
              (abs_sub_lt_of_sq (by push_cast; nlinarith))
            have t365 := all_true_of_min (d := d) (c := 365) (L := ([7, 14, 28, 30, 31, 365] : List ℤ))
              (by intro q hq; fin_cases hq <;> (apply abs_sub_le_of_sq; push_cast; nlinarith))
            simp only [nearestSpecPeriod, CANDIDATE_PERIODS, f7, f14, f28, f30, f31, t365,
              List.find?_cons_of_neg, List.find?_cons_of_pos, Bool.false_eq_true,
              not_false_eq_true, Option.getD_some]
            simp [h1, h2, h3, h4, h5]

/-- The implementation's fold agrees with the spec's "first-listed nearest
candidate" on every input. -/
theorem nearest_period_eq_spec (d : ℚ) : nearest_period d = nearestSpecPeriod d := by
  rw [nearest_period_closed, nearestSpec_closed]

theorem dayGaps_length (l : List ℤ) : (dayGaps l).length = l.length - 1 := by
  induction l with
  | nil => rfl
  | cons a t ih =>
    cases t with
    | nil => rfl
    | cons b u =>
      show (Int.fdiv (b - a) 86400 :: dayGaps (b :: u)).length = (a :: b :: u).length - 1
      rw [List.length_cons, ih]
      simp

theorem sortPairs_length (l : List (ℤ × ℚ)) : (sortPairs l).length = l.length :=
  (sortBy_perm _ l).length_eq

theorem drGaps_length (dates : List ℤ) (amounts : List ℚ) :
    (drGaps dates amounts).length = min dates.length amounts.length - 1 := by
  rw [drGaps, dayGaps_length, drDates, List.length_map, drPairs, sortPairs_length,
    List.length_zip]

/-- When the two input sequences are parallel and have at least two entries,
the gap list is non-empty, so the internal zero-gaps guard cannot fire. -/
theorem drGaps_ne_nil {dates : List ℤ} {amounts : List ℚ}
    (heq : dates.length = amounts.length) (h2 : 2 ≤ dates.length) :
    (drGaps dates amounts).isEmpty = false := by
  have hlen : (drGaps dates amounts).length = dates.length - 1 := by
    rw [drGaps_length, ← heq, min_self]
  have : 0 < (drGaps dates amounts).length := by omega
  cases hg : drGaps dates amounts with
  | nil => rw [hg] at this; simp at this
  | cons a t => rfl

theorem detect_recurring_some {dates : List ℤ} {amounts : List ℚ} {mp : ℕ}
    (hmp : mp ≤ dates.length) (heq : dates.length = amounts.length)
    (h2 : 2 ≤ dates.length) :
    detect_recurring dates amounts mp = some (drResult dates amounts) := by
  rw [detect_recurring, if_neg (not_lt.mpr hmp), drGaps_ne_nil heq h2]
  simp

/-! ### Claims C8, C9, C10 -/

/-- C8: for every dates/amounts input with fewer than `min_points`
observations (default 3), `detect_recurring` returns no result (`none`) —
insufficient data is signalled by the return value, not by an error. -/
theorem claim_C8_below_min_points_returns_none
    (dates : List ℤ) (amounts : List ℚ) (min_points : ℕ)
    (h : dates.length < min_points) :
    detect_recurring dates amounts min_points = none := by
  rw [detect_recurring, if_pos h]

theorem claim_C8_below_min_points_returns_none_witness :
    ([(0 : ℤ), 86400].length < 3) ∧ detect_recurring [(0 : ℤ), 86400] [5, 5] 3 = none :=
  ⟨by decide, claim_C8_below_min_points_returns_none _ _ _ (by decide)⟩

/-- C9: for every non-empty list, `median` lies between the list's minimum
and maximum; and `mad` of a non-empty constant list is exactly 0. -/
theorem claim_C9_median_bounds_and_mad_const :
    (∀ l : List ℚ, l ≠ [] → listMin l ≤ median l ∧ median l ≤ listMax l) ∧
    (∀ (l : List ℚ) (c : ℚ), l ≠ [] → (∀ x ∈ l, x = c) → mad l = 0) :=
  ⟨fun _ h => median_between h, fun _ _ h hc => mad_const h hc _⟩

theorem claim_C9_median_bounds_and_mad_const_witness :
    (listMin [3, 1, 2] ≤ median [3, 1, 2] ∧ median [3, 1, 2] ≤ listMax [3, 1, 2]) ∧
    mad [5, 5, 5] = 0 :=
  ⟨claim_C9_median_bounds_and_mad_const.1 [3, 1, 2] (by decide),
   claim_C9_median_bounds_and_mad_const.2 [5, 5, 5] 5 (by decide) (by decide)⟩

/-- C10: with parallel inputs of length at least `min_points ≥ 2`,
`detect_recurring` always returns a series result (the internal zero-gaps
guard is unreachable, and no periodicity/confidence threshold can yield
`none`); consequently in `recompute` every merchant with at least 3
transactions receives an "active" `RecurringSeries` row. -/
theorem claim_C10_detector_total_above_min_points :
    (∀ (dates : List ℤ) (amounts : List ℚ) (mp : ℕ), 2 ≤ mp →
      mp ≤ dates.length → dates.length = amounts.length →
      ∃ r, detect_recurring dates amounts mp = some r) ∧
    (∀ tx : List (ℤ × ℚ), 3 ≤ tx.length →
      ∃ row, merchantSeriesRow tx = some row ∧ row.status = "active") := by
  constructor
  · intro dates amounts mp h2 hmp heq
    exact ⟨_, detect_recurring_some hmp heq (le_trans h2 hmp)⟩
  · intro tx h3
    have hmap : (tx.map Prod.fst).length = (tx.map Prod.snd).length := by simp
    have hlen : 3 ≤ (tx.map Prod.fst).length := by simpa using h3
    rw [merchantSeriesRow, if_neg (not_lt.mpr h3),
      detect_recurring_some hlen hmap (by omega)]
    exact ⟨_, rfl, rfl⟩

theorem claim_C10_detector_total_above_min_points_witness :
    (∃ r, detect_recurring [(0 : ℤ), 86400] [5, 5] 2 = some r) ∧
    (∃ row, merchantSeriesRow [((0 : ℤ), (5 : ℚ)), (86400, 5), (172800, 5)] = some row ∧
      row.status = "active") :=
  ⟨claim_C10_detector_total_above_min_points.1 [0, 86400] [5, 5] 2
      (by decide) (by decide) (by decide),
   claim_C10_detector_total_above_min_points.2 _ (by decide)⟩

theorem sortZ_perm (l : List ℤ) : List.Perm (sortZ l) l := sortBy_perm _ l

theorem sortZ_sorted (l : List ℤ) :
    (sortZ l).Pairwise (fun x y : ℤ => decide (x ≤ y) = true) := by
  refine sortBy_sorted _ ?_ ?_ l
  · intro x y h
    simp only [decide_eq_false_iff_not, not_le] at h
    simpa using le_of_lt h
  · intro x y z hxy hyz
    simp only [decide_eq_true_eq] at hxy hyz ⊢
    exact le_trans hxy hyz

theorem foldl_max_mem {α : Type} [LinearOrder α] (t : List α) (a : α) :
    t.foldl max a ∈ a :: t := by
  induction t generalizing a with
  | nil => simp
  | cons b u ih =>
    have h := ih (max a b)
    show List.foldl max (max a b) u ∈ a :: b :: u
    rcases List.mem_cons.mp h with h | h
    · rw [h]
      rcases max_choice a b with hm | hm <;> rw [hm] <;> simp
    · simp [h]

theorem listMaxZ_mem {l : List ℤ} (hl : l ≠ []) : listMaxZ l ∈ l := by
  cases l with
  | nil => exact absurd rfl hl
  | cons a t => exact foldl_max_mem t a

theorem le_listMaxZ_of_mem {l : List ℤ} {x : ℤ} (hx : x ∈ l) : x ≤ listMaxZ l := by
  cases l with
  | nil => cases hx
  | cons a t =>
    rcases List.mem_cons.mp hx with h | h
    · rw [h]
      simpa [listMaxZ] using (le_foldl_max t a).1
    · simpa [listMaxZ] using (le_foldl_max t a).2 x h

/-- In a `≤`-sorted list every element is at most the last element. -/
theorem sorted_le_getLastD {s : List ℤ}
    (hs : s.Pairwise (fun x y : ℤ => decide (x ≤ y) = true)) :
    ∀ d, ∀ x ∈ s, x ≤ s.getLastD d := by
  induction s with
  | nil => intro d x hx; cases hx
  | cons a t ih =>
    rcases List.pairwise_cons.mp hs with ⟨ha, ht⟩
    intro d x hx
    cases t with
    | nil =>
      rcases List.mem_cons.mp hx with h | h
      · simp [h, List.getLastD]
      · cases h
    | cons b u =>
      have hstep : (a :: b :: u).getLastD d = (b :: u).getLastD a := by
        simp [List.getLastD]
      rw [hstep]
      rcases List.mem_cons.mp hx with h | h
      · have hab : a ≤ b := by simpa using ha b (by simp)
        have hb := ih ht a b (by simp)
        rw [h]
        exact le_trans hab hb
      · exact ih ht a x h

theorem getLastD_mem {s : List ℤ} (hs : s ≠ []) (d : ℤ) : s.getLastD d ∈ s := by
  induction s generalizing d with
  | nil => exact absurd rfl hs
  | cons a t ih =>
    cases t with
    | nil => simp [List.getLastD]
    | cons b u =>
      have hstep : (a :: b :: u).getLastD d = (b :: u).getLastD a := by
        simp [List.getLastD]
      rw [hstep]
      exact List.mem_cons_of_mem a (ih (by simp) a)

/-- The last element of the sorted timestamp list is the maximum. -/
theorem sortZ_getLastD_eq_max {l : List ℤ} (hl : l ≠ []) :
    (sortZ l).getLastD 0 = listMaxZ l := by
  have hsne : sortZ l ≠ [] := by
    intro h
    have := (sortZ_perm l).length_eq
    rw [h] at this
    cases l with
    | nil => exact absurd rfl hl
    | cons a t => simp at this
  apply le_antisymm
  · exact le_listMaxZ_of_mem ((sortZ_perm l).mem_iff.mp (getLastD_mem hsne 0))
  · exact sorted_le_getLastD (sortZ_sorted l) 0 _
      ((sortZ_perm l).mem_iff.mpr (listMaxZ_mem hl))

theorem insertSorted_map_fst (a : ℤ × ℚ) (l : List (ℤ × ℚ)) :
    (insertSorted (fun x y : ℤ × ℚ => decide (x.1 ≤ y.1)) a l).map Prod.fst
      = insertSorted (fun x y : ℤ => decide (x ≤ y)) a.1 (l.map Prod.fst) := by
  induction l with
  | nil => rfl
  | cons b t ih =>
    by_cases h : a.1 ≤ b.1
    · simp [insertSorted, h]
    · simp [insertSorted, h, ih]

/-- Sorting pairs by timestamp and projecting timestamps equals sorting the
timestamps. -/
theorem sortPairs_map_fst (l : List (ℤ × ℚ)) :
    (sortPairs l).map Prod.fst = sortZ (l.map Prod.fst) := by
  induction l with
  | nil => rfl
  | cons a t ih =>
    show (insertSorted _ a (sortPairs t)).map Prod.fst = _
    rw [insertSorted_map_fst, ih]
    rfl

theorem drDates_eq_sortZ {dates : List ℤ} {amounts : List ℚ}
    (heq : dates.length = amounts.length) :
    drDates dates amounts = sortZ dates := by
  rw [drDates, drPairs, sortPairs_map_fst, List.map_fst_zip _ _ (le_of_eq heq)]

theorem detect_some_facts {dates : List ℤ} {amounts : List ℚ} {mp : ℕ} {r : SeriesResult}
    (h : detect_recurring dates amounts mp = some r) :
    r = drResult dates amounts ∧ ¬dates.length < mp ∧
      (drGaps dates amounts).isEmpty = false := by
  rw [detect_recurring] at h
  by_cases h1 : dates.length < mp
  · rw [if_pos h1] at h; cases h
  · rw [if_neg h1] at h
    by_cases h2 : (drGaps dates amounts).isEmpty
    · rw [if_pos h2] at h; cases h
    · rw [if_neg h2] at h
      refine ⟨(Option.some.inj h).symm, h1, ?_⟩
      revert h2
      cases (drGaps dates amounts).isEmpty <;> simp

theorem nearest_period_mem (d : ℚ) :
    nearest_period d = 7 ∨ nearest_period d = 14 ∨ nearest_period d = 28 ∨
      nearest_period d = 30 ∨ nearest_period d = 31 ∨ nearest_period d = 365 := by
  rw [nearest_period_closed]
  split_ifs <;> simp

/-- The code's tolerance choice agrees with the spec's (3 for the short
periods, 10 for 365) because the snapped period is always a candidate. -/
theorem drTol_eq_specTol (dates : List ℤ) (amounts : List ℚ) :
    drTol dates amounts = specTol (drPeriod dates amounts) := by
  rcases nearest_period_mem (drGapMed dates amounts) with h | h | h | h | h | h <;>
    · have hp : drPeriod dates amounts = _ := h
      simp [drTol, specTol, hp]

theorem drGapConsistency_eq_spec (dates : List ℤ) (amounts : List ℚ)
    (hne : (drGaps dates amounts).isEmpty = false) :
    drGapConsistency dates amounts
      = specGapConsistency (drGaps dates amounts) (drPeriod dates amounts) := by
  have hlen : 1 ≤ (drGaps dates amounts).length := by
    cases hg : drGaps dates amounts with
    | nil => rw [hg] at hne; simp at hne
    | cons a t => simp
  simp only [drGapConsistency, specGapConsistency, drTol_eq_specTol]
  rw [Nat.max_eq_right hlen]

theorem drAmtStability_eq (dates : List ℤ) (amounts : List ℚ) :
    drAmtStability dates amounts
      = 1 / (1 + mad (drAmounts dates amounts)
          / (|median (drAmounts dates amounts)| + 1 / 1000000)) := by
  simp only [drAmtStability]
  rw [max_eq_right (le_add_of_nonneg_left (abs_nonneg _))]

/-- C1: on every accepted input, the result of `detect_recurring` satisfies
the spec's postconditions: `period_days` is the first-listed nearest
candidate to the median whole-day gap; `confidence` is
`clamp(0.55·gap_consistency + 0.45·amount_stability, 0, 1)` with
`gap_consistency` the fraction of gaps within tolerance (3 for periods
7/14/28/30/31, 10 for 365) and
`amount_stability = 1/(1 + amount_mad/(|amount_median| + 1e-6))`; and
`next_expected_at` is the latest observation's timestamp plus
`period_days` days. -/
theorem claim_C1_detect_recurring_postconditions
    (dates : List ℤ) (amounts : List ℚ) (mp : ℕ) (r : SeriesResult)
    (heq : dates.length = amounts.length)
    (h : detect_recurring dates amounts mp = some r) :
    r.period_days
        = nearestSpecPeriod (median ((dayGaps (sortZ dates)).map (fun (g : ℤ) => (g : ℚ)))) ∧
    r.confidence
        = specClamp ((55 / 100) * specGapConsistency (dayGaps (sortZ dates)) r.period_days
            + (45 / 100) * (1 / (1 + r.amount_mad / (|r.amount_median| + 1 / 1000000)))) ∧
    r.next_expected_at = listMaxZ dates + r.period_days * 86400 := by
  obtain ⟨hr, hmp, hne⟩ := detect_some_facts h
  subst hr
  have hds : drDates dates amounts = sortZ dates := drDates_eq_sortZ heq
  have hg : drGaps dates amounts = dayGaps (sortZ dates) := by rw [drGaps, hds]
  have hdatesne : dates ≠ [] := by
    intro hnil
    subst hnil
    have hlen := drGaps_length ([] : List ℤ) amounts
    simp at hlen
    rw [hlen] at hne
    simp at hne
  refine ⟨?_, ?_, ?_⟩
  · show drPeriod dates amounts = _
    rw [drPeriod, drGapMed, hg, nearest_period_eq_spec]
  · show drConfidence dates amounts = _
    rw [drConfidence, specClamp]
    have hfields :
        (1 : ℚ) / (1 + (drResult dates amounts).amount_mad
            / (|(drResult dates amounts).amount_median| + 1 / 1000000))
          = drAmtStability dates amounts := by
      rw [drAmtStability_eq]
      rfl
    have hperiod : (drResult dates amounts).period_days = drPeriod dates amounts := rfl
    rw [hperiod, hfields, ← hg, ← drGapConsistency_eq_spec dates amounts hne]
  · show (drDates dates amounts).getLastD 0 + drPeriod dates amounts * 86400 = _
    rw [hds, sortZ_getLastD_eq_max hdatesne]
    rfl

theorem claim_C1_detect_recurring_postconditions_witness :
    (drResult [(0 : ℤ), 2592000, 5184000] [5, 5, 5]).period_days
        = nearestSpecPeriod
            (median ((dayGaps (sortZ [(0 : ℤ), 2592000, 5184000])).map (fun (g : ℤ) => (g : ℚ)))) ∧
    (drResult [(0 : ℤ), 2592000, 5184000] [5, 5, 5]).confidence
        = specClamp ((55 / 100)
              * specGapConsistency (dayGaps (sortZ [(0 : ℤ), 2592000, 5184000]))
                  (drResult [(0 : ℤ), 2592000, 5184000] [5, 5, 5]).period_days
            + (45 / 100) * (1 / (1 + (drResult [(0 : ℤ), 2592000, 5184000] [5, 5, 5]).amount_mad
                / (|(drResult [(0 : ℤ), 2592000, 5184000] [5, 5, 5]).amount_median|
                    + 1 / 1000000)))) ∧
    (drResult [(0 : ℤ), 2592000, 5184000] [5, 5, 5]).next_expected_at
        = listMaxZ [(0 : ℤ), 2592000, 5184000]
            + (drResult [(0 : ℤ), 2592000, 5184000] [5, 5, 5]).period_days * 86400 :=
  claim_C1_detect_recurring_postconditions [(0 : ℤ), 2592000, 5184000] [5, 5, 5] 3 _
    (by decide) rfl

theorem monthDays_bounds {febLen : ℕ → ℕ}
    (hfeb : ∀ y, febLen y = 28 ∨ febLen y = 29) (m : ℕ) :
    28 ≤ monthDays febLen m ∧ monthDays febLen m ≤ 31 := by
  rw [monthDays]
  split_ifs with h1 h2
  · rcases hfeb (m / 12) with h | h <;> omega
  · omega
  · omega

theorem monthDays_lt_30_iff {febLen : ℕ → ℕ}
    (hfeb : ∀ y, febLen y = 28 ∨ febLen y = 29) (m : ℕ) :
    monthDays febLen m < 30 ↔ m % 12 = 1 := by
  rw [monthDays]
  split_ifs with h1 h2
  · rcases hfeb (m / 12) with h | h <;> omega
  · omega
  · omega

/-- A month adjacent to a February has 31 days. -/
theorem monthDays_succ_of_feb {febLen : ℕ → ℕ} {m : ℕ} (h : m % 12 = 1) :
    monthDays febLen (m + 1) = 31 := by
  rw [monthDays]
  have : (m + 1) % 12 = 2 := by omega
  split_ifs with h1 h2 <;> omega

theorem monthDays_pred_of_feb {febLen : ℕ → ℕ} {m : ℕ} (h : (m + 1) % 12 = 1) :
    monthDays febLen m = 31 := by
  rw [monthDays]
  have : m % 12 = 0 := by omega
  split_ifs with h1 h2 <;> omega

/-- A 12-separated list of indices below `k` has at most `⌈k/12⌉` entries. -/
theorem sep12_length_bound (k : ℕ) :
    ∀ (L : List ℕ), L.Pairwise (fun a b => a + 12 ≤ b) →
      (∀ x ∈ L, x < k) → ∀ c : ℕ, (∀ x ∈ L, c ≤ x) →
      12 * L.length ≤ k - c + 11 := by
  intro L
  induction L with
  | nil =>
    intro _ _ c _
    simp only [List.length_nil]
    omega
  | cons a t ih =>
    intro hp hk c hc
    rcases List.pairwise_cons.mp hp with ⟨hat, hpt⟩
    have hak : a < k := hk a (by simp)
    have hca : c ≤ a := hc a (by simp)
    have ht := ih hpt (fun x hx => hk x (List.mem_cons_of_mem a hx)) (a + 12)
      (fun x hx => hat x hx)
    simp only [List.length_cons]
    omega

/-- Indices below `k` whose month lands on a February are 12-separated,
so there are at most `(k + 11) / 12` of them. -/
theorem feb_count_bound (k m0 : ℕ) :
    12 * ((List.range k).filter (fun i => decide ((m0 + i) % 12 = 1))).length ≤ k + 11 := by
  set L := (List.range k).filter (fun i => decide ((m0 + i) % 12 = 1)) with hL
  have hlt : L.Pairwise (· < ·) :=
    List.Pairwise.sublist (List.filter_sublist _) (List.pairwise_lt_range k)
  have hmem : ∀ x ∈ L, (m0 + x) % 12 = 1 ∧ x < k := by
    intro x hx
    rw [hL, List.mem_filter, List.mem_range] at hx
    exact ⟨by simpa using hx.2, hx.1⟩
  have hsep : L.Pairwise (fun a b => a + 12 ≤ b) := by
    refine hlt.imp_of_mem ?_
    intro a b ha hb hab
    have h1 := (hmem a ha).1
    have h2 := (hmem b hb).1
    omega
  have := sep12_length_bound k L hsep (fun x hx => (hmem x hx).2) 0 (fun x _ => Nat.zero_le x)
  omega

/-- In a sorted list, if at most `j` elements are below `c`, the element at
index `j` is at least `c`. -/
theorem sortQ_getD_ge_of_count {G : List ℚ} {c : ℚ} {j : ℕ}
    (hj : j < (sortQ G).length)
    (hcount : ((sortQ G).filter (fun x => decide (x < c))).length ≤ j) :
    c ≤ (sortQ G).getD j 0 := by
  by_contra hlt
  push_neg at hlt
  have hgetD : (sortQ G).getD j 0 = (sortQ G).get ⟨j, hj⟩ := by
    rw [List.getD_eq_getElem?_getD, List.getElem?_eq_getElem hj]
    rfl
  rw [hgetD] at hlt
  have hmono : ∀ (i : Fin (sortQ G).length), (i : ℕ) ≤ j →
      (sortQ G).get i ≤ (sortQ G).get ⟨j, hj⟩ := by
    intro i hij
    rcases lt_or_eq_of_le hij with hij | hij
    · have hp := (List.pairwise_iff_get.mp (sortQ_sorted G)) i ⟨j, hj⟩ hij
      simpa using hp
    · have : i = ⟨j, hj⟩ := Fin.ext hij
      rw [this]
  have htake : ∀ x ∈ (sortQ G).take (j + 1), decide (x < c) = true := by
    intro x hx
    obtain ⟨i, hxi⟩ := List.mem_iff_get.mp hx
    have hilen : (i : ℕ) < (sortQ G).length := lt_of_lt_of_le i.isLt (by
      rw [List.length_take]
      exact min_le_right _ _)
    have hij : (i : ℕ) ≤ j := by
      have h1 := i.isLt
      have h2 : (List.take (j + 1) (sortQ G)).length ≤ j + 1 := List.length_take_le _ _
      omega
    have hget : ((sortQ G).take (j + 1)).get i = (sortQ G).get ⟨i, hilen⟩ := by
      have h1 : ((sortQ G).take (j + 1))[(i : ℕ)]? = (sortQ G)[(i : ℕ)]? :=
        List.getElem?_take_of_lt (by omega)
      rw [List.getElem?_eq_getElem i.isLt, List.getElem?_eq_getElem hilen] at h1
      rw [List.get_eq_getElem, List.get_eq_getElem]
      exact Option.some.inj h1
    have := hmono ⟨i, hilen⟩ hij
    rw [← hxi, hget]
    simpa using lt_of_le_of_lt this hlt
  have hfl : (((sortQ G).take (j + 1)).filter (fun x => decide (x < c))).length = j + 1 := by
    rw [List.filter_eq_self.mpr htake, List.length_take]
    have : j + 1 ≤ (sortQ G).length := hj
    omega
  have hsub : (((sortQ G).take (j + 1)).filter (fun x => decide (x < c))).length
      ≤ ((sortQ G).filter (fun x => decide (x < c))).length :=
    ((List.take_sublist _ _).filter _).length_le
  omega

theorem listMax_mem {l : List ℚ} (hl : l ≠ []) : listMax l ∈ l := by
  cases l with
  | nil => exact absurd rfl hl
  | cons a t => exact foldl_max_mem t a

theorem median_pair (a b : ℚ) : median [a, b] = (a + b) / 2 := by
  by_cases h : a ≤ b
  · simp [median, sortQ, sortBy, insertSorted, h]
  · simp [median, sortQ, sortBy, insertSorted, h]
    ring

/-- The median of the day gaps of consecutive calendar months lies in
`(29, 31]`: Februaries are isolated (at most every 12th gap and flanked by
31-day months), so they cannot drag the median to 29 or below. -/
theorem monthly_gap_median_bounds (febLen : ℕ → ℕ) (m0 k : ℕ)
    (hfeb : ∀ y, febLen y = 28 ∨ febLen y = 29) (hk : 2 ≤ k) :
    29 < median ((List.range k).map (fun i => ((monthDays febLen (m0 + i) : ℕ) : ℚ)))
      ∧ median ((List.range k).map (fun i => ((monthDays febLen (m0 + i) : ℕ) : ℚ))) ≤ 31 := by
  set f : ℕ → ℚ := fun i => ((monthDays febLen (m0 + i) : ℕ) : ℚ) with hf
  set G := (List.range k).map f with hG
  have hGlen : G.length = k := by rw [hG, List.length_map, List.length_range]
  have hGne : G ≠ [] := by
    intro h
    rw [h] at hGlen
    simp at hGlen
    omega
  have hub : ∀ x ∈ G, x ≤ 31 := by
    intro x hx
    rw [hG] at hx
    rcases List.mem_map.mp hx with ⟨i, _, rfl⟩
    have := (monthDays_bounds hfeb (m0 + i)).2
    show ((monthDays febLen (m0 + i) : ℕ) : ℚ) ≤ 31
    exact_mod_cast this
  have hlb : ∀ x ∈ G, 28 ≤ x := by
    intro x hx
    rw [hG] at hx
    rcases List.mem_map.mp hx with ⟨i, _, rfl⟩
    have := (monthDays_bounds hfeb (m0 + i)).1
    show (28 : ℚ) ≤ ((monthDays febLen (m0 + i) : ℕ) : ℚ)
    exact_mod_cast this
  have hupper : median G ≤ 31 :=
    le_trans (median_between hGne).2 (hub _ (listMax_mem hGne))
  -- count of sub-30 entries
  have hcount : (G.filter (fun x => decide (x < 30))).length
      = ((List.range k).filter (fun i => decide ((m0 + i) % 12 = 1))).length := by
    rw [hG, ← List.countP_eq_length_filter, ← List.countP_eq_length_filter,
      List.countP_map]
    apply List.countP_congr
    intro i _
    show decide (f i < 30) = true ↔ decide ((m0 + i) % 12 = 1) = true
    simp only [decide_eq_true_eq]
    show ((monthDays febLen (m0 + i) : ℕ) : ℚ) < 30 ↔ (m0 + i) % 12 = 1
    rw [← monthDays_lt_30_iff hfeb]
    exact ⟨fun h => by exact_mod_cast h, fun h => by exact_mod_cast h⟩
  have hbound := feb_count_bound k m0
  have hslen : (sortQ G).length = k := by rw [sortQ_length, hGlen]
  have hcnt_sorted : ((sortQ G).filter (fun x => decide (x < 30))).length
      = ((List.range k).filter (fun i => decide ((m0 + i) % 12 = 1))).length := by
    rw [((sortQ_perm G).filter _).length_eq, hcount]
  -- member-based bound for sorted entries
  have hub_sorted : ∀ j, j < (sortQ G).length → (sortQ G).getD j 0 ≤ 31 :=
    fun j hj => hub _ (median_mem_getD j hj)
  rcases Nat.lt_or_ge k 3 with hk2 | hk3
  · -- k = 2: the two gaps are adjacent months, so they sum to at least 59
    have hk2' : k = 2 := by omega
    subst hk2'
    have hrange : List.range 2 = [0, 1] := by decide
    have hG2 : G = [f 0, f 1] := by rw [hG, hrange]; rfl
    set n0 := monthDays febLen (m0 + 0) with hn0
    set n1 := monthDays febLen (m0 + 1) with hn1
    have hsum : 59 ≤ n0 + n1 := by
      by_cases hm : m0 % 12 = 1
      · have h31 : monthDays febLen (m0 + 1) = 31 := monthDays_succ_of_feb hm
        have h28 := (monthDays_bounds hfeb (m0 + 0)).1
        omega
      · by_cases hm1 : (m0 + 1) % 12 = 1
        · have h31 : monthDays febLen (m0 + 0) = 31 := by
            have : m0 + 0 = m0 := by omega
            rw [this]
            exact monthDays_pred_of_feb (by omega)
          have h28 := (monthDays_bounds hfeb (m0 + 1)).1
          omega
        · have h0 : ¬monthDays febLen (m0 + 0) < 30 := by
            rw [monthDays_lt_30_iff hfeb]
            omega
          have h1 : ¬monthDays febLen (m0 + 1) < 30 := by
            rw [monthDays_lt_30_iff hfeb]
            omega
          omega
    have hmed : median G = (f 0 + f 1) / 2 := by rw [hG2, median_pair]
    constructor
    · rw [hmed]
      have : (59 : ℚ) ≤ f 0 + f 1 := by
        rw [hf]
        push_cast
        exact_mod_cast hsum
      linarith
    · exact hupper
  · -- k ≥ 3: positional argument in the sorted gap list
    have hne : G.isEmpty = false := by
      cases hG2 : G with
      | nil => exact absurd hG2 hGne
      | cons a t => rfl
    have hmid : k / 2 < (sortQ G).length := by rw [hslen]; omega
    have hgetmid : (30 : ℚ) ≤ (sortQ G).getD (k / 2) 0 := by
      apply sortQ_getD_ge_of_count hmid
      rw [hcnt_sorted]
      omega
    have hmeddef : median G
        = if (sortQ G).length % 2 = 1 then (sortQ G).getD ((sortQ G).length / 2) 0
          else ((sortQ G).getD ((sortQ G).length / 2 - 1) 0
            + (sortQ G).getD ((sortQ G).length / 2) 0) / 2 := by
      rw [median, if_neg (by simp [hne])]
    refine ⟨?_, hupper⟩
    rw [hmeddef, hslen]
    by_cases hpar : k % 2 = 1
    · rw [if_pos hpar]
      linarith [hgetmid]
    · rw [if_neg hpar]
      have hmid1 : k / 2 - 1 < (sortQ G).length := by rw [hslen]; omega
      have hget1 : (30 : ℚ) ≤ (sortQ G).getD (k / 2 - 1) 0 := by
        apply sortQ_getD_ge_of_count hmid1
        rw [hcnt_sorted]
        omega
      linarith [hgetmid, hget1]

/-- C5: for at least 3 monthly-spaced observations (consecutive whole-day
gaps of calendar-month length) with all amounts equal, `detect_recurring`
returns a result with `period_days ∈ {30, 31}` and confidence strictly
above 0.8 (in fact exactly 1). -/
theorem claim_C5_monthly_series_detected
    (dates : List ℤ) (amounts : List ℚ) (c : ℚ) (m0 : ℕ) (febLen : ℕ → ℕ)
    (hfeb : ∀ y, febLen y = 28 ∨ febLen y = 29)
    (heq : dates.length = amounts.length)
    (hlen : 3 ≤ dates.length)
    (hsorted : dates.Pairwise (· ≤ ·))
    (hgaps : dayGaps dates = (List.range (dates.length - 1)).map
        (fun i => (monthDays febLen (m0 + i) : ℤ)))
    (hconst : ∀ a ∈ amounts, a = c) :
    ∃ r, detect_recurring dates amounts 3 = some r ∧
      (r.period_days = 30 ∨ r.period_days = 31) ∧ 8 / 10 < r.confidence := by
  have hlen2 : 2 ≤ dates.length := by omega
  have hdet := @detect_recurring_some dates amounts 3 hlen heq hlen2
  have hsz : sortZ dates = dates := by
    apply sortBy_eq_self_of_sorted
    exact hsorted.imp (fun h => by simpa using h)
  have hds : drDates dates amounts = dates := by rw [drDates_eq_sortZ heq, hsz]
  set k := dates.length - 1 with hk
  have hk2 : 2 ≤ k := by omega
  have hgapsImpl : drGaps dates amounts
      = (List.range k).map (fun i => (monthDays febLen (m0 + i) : ℤ)) := by
    rw [drGaps, hds, hgaps]
  have hglen : (drGaps dates amounts).length = k := by
    rw [hgapsImpl, List.length_map, List.length_range]
  have hgm : drGapMed dates amounts
      = median ((List.range k).map (fun i => ((monthDays febLen (m0 + i) : ℕ) : ℚ))) := by
    rw [drGapMed, hgapsImpl, List.map_map]
    have hfun : ((fun (g : ℤ) => (g : ℚ)) ∘ fun i => ((monthDays febLen (m0 + i) : ℕ) : ℤ))
        = fun i => ((monthDays febLen (m0 + i) : ℕ) : ℚ) := by
      funext i
      simp
    rw [hfun]
  have hmb := monthly_gap_median_bounds febLen m0 k hfeb hk2
  rw [← hgm] at hmb
  obtain ⟨hm1, hm2⟩ := hmb
  have hp : drPeriod dates amounts = 30 ∨ drPeriod dates amounts = 31 := by
    rcases le_or_lt (drGapMed dates amounts) (61 / 2) with h30 | h30
    · left
      rw [drPeriod, nearest_period_closed, if_neg (by linarith), if_neg (by linarith),
        if_neg (by linarith), if_pos h30]
    · right
      rw [drPeriod, nearest_period_closed, if_neg (by linarith), if_neg (by linarith),
        if_neg (by linarith), if_neg (by linarith), if_pos (by linarith)]
  have htol : drTol dates amounts = 3 := by
    rcases hp with hp | hp <;> simp [drTol, hp]
  have hfilter : (drGaps dates amounts).filter (fun g =>
      decide (|g - drPeriod dates amounts| ≤ drTol dates amounts))
      = drGaps dates amounts := by
    apply List.filter_eq_self.mpr
    intro g hg
    rw [hgapsImpl] at hg
    rcases List.mem_map.mp hg with ⟨i, _, rfl⟩
    have hb := monthDays_bounds hfeb (m0 + i)
    have hb1 : (28 : ℤ) ≤ (monthDays febLen (m0 + i) : ℤ) := by exact_mod_cast hb.1
    have hb2 : (monthDays febLen (m0 + i) : ℤ) ≤ 31 := by exact_mod_cast hb.2
    rw [htol]
    simp only [decide_eq_true_eq]
    rcases hp with hp | hp <;> rw [hp] <;> rw [abs_le] <;> omega
  have hgc : drGapConsistency dates amounts = 1 := by
    simp only [drGapConsistency]
    rw [hfilter, hglen, Nat.max_eq_right (by omega : 1 ≤ k),
      div_self (show ((k : ℕ) : ℚ) ≠ 0 by exact_mod_cast (by omega : k ≠ 0))]
  have hpairsmem : ∀ x ∈ drAmounts dates amounts, x = c := by
    intro x hx
    rcases List.mem_map.mp hx with ⟨p, hpmem, rfl⟩
    have hz : p ∈ dates.zip amounts := (sortBy_perm _ _).mem_iff.mp hpmem
    have := List.of_mem_zip hz
    exact hconst p.2 this.2
  have hane : drAmounts dates amounts ≠ [] := by
    have hla : (drAmounts dates amounts).length = dates.length := by
      rw [drAmounts, List.length_map, drPairs, sortPairs_length, List.length_zip, ← heq,
        min_self]
    intro hnil
    rw [hnil] at hla
    simp at hla
    omega
  have has : drAmtStability dates amounts = 1 := by
    rw [drAmtStability_eq, median_const hane hpairsmem, mad_const hane hpairsmem]
    simp
  have hconf : drConfidence dates amounts = 1 := by
    rw [drConfidence, hgc, has]
    norm_num
  refine ⟨drResult dates amounts, hdet, hp, ?_⟩
  show (8 : ℚ) / 10 < drConfidence dates amounts
  rw [hconf]
  norm_num

theorem claim_C5_monthly_series_detected_witness :
    ∃ r, detect_recurring [(0 : ℤ), 2678400, 5097600] [10, 10, 10] 3
        = some r ∧ (r.period_days = 30 ∨ r.period_days = 31) ∧ 8 / 10 < r.confidence :=
  claim_C5_monthly_series_detected [(0 : ℤ), 2678400, 5097600]
    [10, 10, 10] 10 0 (fun _ => 28)
    (fun _ => Or.inl rfl) (by decide) (by decide) (by decide) (by decide) (by decide)

theorem dedup_foldl_mem (l : List String) :
    ∀ (acc : List String) (x : String),
      x ∈ l.foldl (fun acc m => if m ∈ acc then acc else acc ++ [m]) acc ↔
        x ∈ acc ∨ x ∈ l := by
  induction l with
  | nil => intro acc x; simp
  | cons a t ih =>
    intro acc x
    by_cases h : a ∈ acc
    · rw [List.foldl_cons, if_pos h, ih]
      constructor
      · rintro (hx | hx)
        · exact Or.inl hx
        · exact Or.inr (List.mem_cons_of_mem a hx)
      · rintro (hx | hx)
        · exact Or.inl hx
        · rcases List.mem_cons.mp hx with hx | hx
          · rw [hx]; exact Or.inl h
          · exact Or.inr hx
    · rw [List.foldl_cons, if_neg h, ih]
      constructor
      · rintro (hx | hx)
        · rcases List.mem_append.mp hx with hx | hx
          · exact Or.inl hx
          · simp at hx
            rw [hx]
            exact Or.inr (by simp)
        · exact Or.inr (List.mem_cons_of_mem a hx)
      · rintro (hx | hx)
        · exact Or.inl (List.mem_append.mpr (Or.inl hx))
        · rcases List.mem_cons.mp hx with hx | hx
          · exact Or.inl (List.mem_append.mpr (Or.inr (by simp [hx])))
          · exact Or.inr hx

theorem dedup_foldl_nodup (l : List String) :
    ∀ acc : List String, acc.Nodup →
      (l.foldl (fun acc m => if m ∈ acc then acc else acc ++ [m]) acc).Nodup := by
  induction l with
  | nil => intro acc h; simpa using h
  | cons a t ih =>
    intro acc hacc
    by_cases h : a ∈ acc
    · rw [List.foldl_cons, if_pos h]
      exact ih acc hacc
    · rw [List.foldl_cons, if_neg h]
      apply ih
      rw [← List.concat_eq_append]
      exact hacc.concat h

theorem merchantKeys_mem {rows : List AnomRow} {m : String} :
    m ∈ merchantKeys rows ↔ ∃ r ∈ rows, r.merchant = m := by
  rw [merchantKeys, dedup_foldl_mem]
  simp

theorem merchantKeys_nodup (rows : List AnomRow) : (merchantKeys rows).Nodup :=
  dedup_foldl_nodup _ [] List.nodup_nil

theorem filterMap_ite_eq_map_filter {α β : Type} (l : List α) (p : α → Prop)
    [DecidablePred p] (h : α → β) :
    l.filterMap (fun r => if p r then some (h r) else none)
      = (l.filter (fun r => decide (p r))).map h := by
  induction l with
  | nil => rfl
  | cons a t ih =>
    by_cases hp : p a <;> simp [List.filterMap_cons, List.filter_cons, hp, ih]

/-- Each flag produced for key `m` carries merchant `m`. -/
theorem merchantFlagsFor_merchant (rows : List AnomRow) (z : ℚ)
    {m : String} {f : AnomFlag} (hf : f ∈ merchantFlagsFor rows z m) :
    f.merchant = m := by
  simp only [merchantFlagsFor] at hf
  split_ifs at hf
  · cases hf
  · rcases List.mem_filterMap.mp hf with ⟨r, _, hr⟩
    split_ifs at hr
    rw [← Option.some.inj hr]

/-- The per-key loop body agrees with the spec-side description. -/
theorem merchantFlagsFor_eq_spec (rows : List AnomRow) (z : ℚ) (m : String) :
    merchantFlagsFor rows z m = specMerchantFlags rows z m := by
  simp only [merchantFlagsFor, specMerchantFlags]
  by_cases h8 : (rows.filter (fun r => r.merchant == m)).length < 8
  · rw [if_pos h8, if_neg (by omega)]
  · rw [if_neg h8, if_pos (by omega)]
    exact filterMap_ite_eq_map_filter _ _ _

theorem filter_flatMap_keys (rows : List AnomRow) (z : ℚ) (m : String) :
    ∀ keys : List String, keys.Nodup →
      ((keys.flatMap (merchantFlagsFor rows z)).filter (fun f => f.merchant == m))
        = if m ∈ keys then merchantFlagsFor rows z m else [] := by
  intro keys
  induction keys with
  | nil => intro _; simp
  | cons a ks ih =>
    intro hnd
    rcases List.nodup_cons.mp hnd with ⟨hnotin, hksnd⟩
    rw [List.flatMap_cons, List.filter_append, ih hksnd]
    by_cases ham : a = m
    · subst ham
      rw [if_neg hnotin, if_pos (by simp)]
      rw [List.filter_eq_self.mpr (fun f hf => by
        simp only [beq_iff_eq]
        exact merchantFlagsFor_merchant rows z hf)]
      simp
    · rw [List.filter_eq_nil_iff.mpr (fun f hf => by
        simp only [beq_iff_eq]
        rw [merchantFlagsFor_merchant rows z hf]
        simp [ham])]
      rw [List.nil_append]
      by_cases hmks : m ∈ ks
      · rw [if_pos hmks, if_pos (List.mem_cons_of_mem a hmks)]
      · rw [if_neg hmks, if_neg (by
          intro hc
          rcases List.mem_cons.mp hc with hc | hc
          · exact ham hc.symm
          · exact hmks hc)]

/-- C7: the per-merchant amount-anomaly detector flags exactly the
transactions described by the spec: for every merchant, flags exist only
when its group has at least 8 transactions, only transactions among the
first 80 of the group (stored order) are flagged, and precisely those with
`|robust z| ≥ z_thresh` of `|amount|` against the group's median/scaled-MAD
baseline are flagged. -/
theorem claim_C7_merchant_anomaly_characterisation
    (rows : List AnomRow) (z_thresh : ℚ) (m : String) :
    (merchant_anomalies rows z_thresh).filter (fun f => f.merchant == m)
      = specMerchantFlags rows z_thresh m := by
  rw [merchant_anomalies, filter_flatMap_keys rows z_thresh m _ (merchantKeys_nodup rows)]
  by_cases hm : m ∈ merchantKeys rows
  · rw [if_pos hm, merchantFlagsFor_eq_spec]
  · rw [if_neg hm]
    have hg : rows.filter (fun r => r.merchant == m) = [] := by
      apply List.filter_eq_nil_iff.mpr
      intro r hr
      simp only [beq_iff_eq, decide_eq_true_eq]
      intro hrm
      exact hm (merchantKeys_mem.mpr ⟨r, hr, hrm⟩)
    rw [specMerchantFlags]
    simp only [hg]
    rw [if_neg (by simp)]

/-- C2: a merchant with exactly two transactions two hours apart and equal
amounts yields, from the event generation over that merchant, exactly one
`possible_duplicate` event (severity `warn`) for that pair. -/
theorem claim_C2_two_hour_equal_amount_duplicate
    (now t0 : ℤ) (amt : ℚ) (id1 id2 : ℕ) (res : SeriesResult) :
    (eventsForSeriesRow now res [⟨id1, t0, amt⟩, ⟨id2, t0 + 7200, amt⟩]).filter
        (fun e => e.type == "possible_duplicate")
      = [{ type := "possible_duplicate", severity := "warn", txn_id := id2,
           evidence := .duplicatePair ⟨id1, t0, amt⟩ ⟨id2, t0 + 7200, amt⟩ }] := by
  have htime : |(t0 + 7200) - t0| ≤ (36 * 3600 : ℤ) := by
    have : (t0 + 7200) - t0 = 7200 := by ring
    rw [this]
    norm_num
  have hamt : |amt - amt| ≤ max (2 / 100 * |amt|) 1 := by
    rw [sub_self, abs_zero]
    exact le_max_of_le_right zero_le_one
  simp [eventsForSeriesRow, newSubEvents, priceChangeEvents, duplicateEvents,
    List.range', htime, hamt]

theorem foldl_add_event_mem (gen : List (String × String)) :
    ∀ s : LedgerDB, ∀ e ∈ (gen.foldl (fun d p => add_event d p.1 p.2) s).events,
      e ∈ s.events ∨ (s.next_event_id ≤ e.id ∧ e.is_dismissed = false) := by
  induction gen with
  | nil => intro s e he; exact Or.inl he
  | cons p t ih =>
    intro s e he
    rcases ih (add_event s p.1 p.2) e he with h | h
    · simp only [add_event] at h
      rcases List.mem_append.mp h with h | h
      · exact Or.inl h
      · simp only [List.mem_singleton] at h
        subst h
        exact Or.inr ⟨le_refl _, rfl⟩
    · have h1 := h.1
      simp only [add_event] at h1
      exact Or.inr ⟨by omega, h.2⟩

/-- C3: a recompute deletes every stored event (dismissed or not) before
regenerating: the cleared state holds no events or series, every event
present after the recompute is a fresh row distinct from every
pre-recompute event, and none of them is dismissed — so dismissals do not
survive a recompute. -/
theorem claim_C3_recompute_drops_all_events
    (db : LedgerDB) (gen : List (String × String))
    (hwf : ∀ e ∈ db.events, e.id < db.next_event_id) :
    (clear_recurring_and_events db).events = [] ∧
    (clear_recurring_and_events db).series = [] ∧
    (∀ e ∈ (recomputeEvents db gen).events, ∀ eOld ∈ db.events, e.id ≠ eOld.id) ∧
    (∀ e ∈ (recomputeEvents db gen).events, e.is_dismissed = false) := by
  have hbase : ∀ e ∈ (recomputeEvents db gen).events,
      db.next_event_id ≤ e.id ∧ e.is_dismissed = false := by
    intro e he
    rcases foldl_add_event_mem gen (clear_recurring_and_events db) e he with h | h
    · cases h
    · exact h
  refine ⟨rfl, rfl, ?_, fun e he => (hbase e he).2⟩
  intro e he eOld hOld heq
  have h1 := (hbase e he).1
  have h2 := hwf eOld hOld
  omega

theorem claim_C3_recompute_drops_all_events_witness :
    (clear_recurring_and_events ⟨[⟨0, "price_change", "warn", true⟩], [], 1⟩).events = [] ∧
    (clear_recurring_and_events ⟨[⟨0, "price_change", "warn", true⟩], [], 1⟩).series = [] ∧
    (∀ e ∈ (recomputeEvents ⟨[⟨0, "price_change", "warn", true⟩], [], 1⟩
        [("daily_spike", "info")]).events,
      ∀ eOld ∈ ([⟨0, "price_change", "warn", true⟩] : List EventRow), e.id ≠ eOld.id) ∧
    (∀ e ∈ (recomputeEvents ⟨[⟨0, "price_change", "warn", true⟩], [], 1⟩
        [("daily_spike", "info")]).events, e.is_dismissed = false) :=
  claim_C3_recompute_drops_all_events ⟨[⟨0, "price_change", "warn", true⟩], [], 1⟩
    [("daily_spike", "info")] (by decide)

theorem pyStrip_subset {s : List Char} {x : Char} (h : x ∈ pyStrip s) : x ∈ s := by
  rw [pyStrip, List.mem_reverse] at h
  have h1 := (List.dropWhile_sublist (l := (s.dropWhile pySpace).reverse)
    (p := pySpace)).subset h
  rw [List.mem_reverse] at h1
  exact (List.dropWhile_sublist (l := s) (p := pySpace)).subset h1

theorem squeezeWsAux_subset {x : Char} :
    ∀ (prev : Bool) (s : List Char), x ∈ squeezeWsAux prev s → x ∈ s ∨ x = ' ' := by
  intro prev s
  induction s generalizing prev with
  | nil => intro h; cases h
  | cons c t ih =>
    intro h
    rw [squeezeWsAux] at h
    split_ifs at h with h1 h2
    · rcases ih true h with h3 | h3
      · exact Or.inl (List.mem_cons_of_mem c h3)
      · exact Or.inr h3
    · rcases List.mem_cons.mp h with h3 | h3
      · exact Or.inr h3
      · rcases ih true h3 with h4 | h4
        · exact Or.inl (List.mem_cons_of_mem c h4)
        · exact Or.inr h4
    · rcases List.mem_cons.mp h with h3 | h3
      · exact Or.inl (by rw [h3]; simp)
      · rcases ih false h3 with h4 | h4
        · exact Or.inl (List.mem_cons_of_mem c h4)
        · exact Or.inr h4

theorem replaceComAux_subset {x : Char} :
    ∀ (fuel : ℕ) (s : List Char), x ∈ replaceComAux fuel s → x ∈ s := by
  intro fuel
  induction fuel with
  | zero => intro s h; exact h
  | succ n ih =>
    intro s h
    cases s with
    | nil => cases h
    | cons c t =>
      rw [replaceComAux] at h
      split_ifs at h with h1
      · exact List.mem_cons_of_mem c ((List.drop_sublist 3 t).subset (ih _ h))
      · rcases List.mem_cons.mp h with h2 | h2
        · rw [h2]; simp
        · exact List.mem_cons_of_mem c (ih t h2)

theorem CARD_SUFFIX_sub_subset {s : List Char} {x : Char}
    (h : x ∈ CARD_SUFFIX_sub s) : x ∈ s := by
  rw [CARD_SUFFIX_sub] at h
  rcases hf : (List.range (s.length + 1)).find? (fun i => cardSuffixAt (s.drop i)) with _ | i
  · rw [hf] at h; exact h
  · rw [hf] at h
    exact (List.take_sublist i s).subset h

theorem replaceNonAllowed_no_star (s : List Char) : '*' ∉ replaceNonAllowed s := by
  intro h
  rcases List.mem_map.mp h with ⟨c, _, hc⟩
  by_cases hk : keepChar c
  · rw [if_pos hk] at hc
    rw [hc] at hk
    exact absurd hk (by decide)
  · rw [if_neg hk] at hc
    cases hc

/-- The final normalized string contains no asterisk: the character-class
replacement removes every `*` and the later steps only delete characters or
insert spaces. -/
theorem star_not_mem_cleanChars (raw : List Char) : '*' ∉ cleanChars raw := by
  intro h
  have h1 := pyStrip_subset h
  rcases squeezeWsAux_subset false _ h1 with h2 | h2
  · have h3 := replaceComAux_subset _ _ h2
    have h4 := CARD_SUFFIX_sub_subset h3
    exact replaceNonAllowed_no_star _ h4
  · cases h2

/-- C6 counterexample: the claim fails for a no-asterisk input. After trim
and uppercase, `"PAYPAL NETFLIX"` begins with the word PAYPAL followed by
whitespace (and no asterisk), yet the normalized result still begins with
that PAYPAL-plus-whitespace prefix: `PAYPAL_PREFIX` requires a literal
`*`. -/
theorem claim_C6_counterexample_no_asterisk_kept :
    paypalWsLead (pyUpper (pyStrip "PAYPAL NETFLIX".data)) = true ∧
    paypalWsLead (cleanChars "PAYPAL NETFLIX".data) = true :=
  ⟨by decide, by decide⟩

theorem pySpace_of_wordChar {c : Char} (h : isWordChar c = true) : pySpace c = false := by
  have h6 : ¬(c = ' ' ∨ c = '\t' ∨ c = '\n' ∨ c = '\x0d' ∨ c = '\x0b' ∨ c = '\x0c') := by
    rintro (rfl | rfl | rfl | rfl | rfl | rfl) <;> exact absurd h (by decide)
  by_contra hs
  rw [Bool.not_eq_false, pySpace] at hs
  simp only [Bool.or_eq_true, beq_iff_eq] at hs
  apply h6
  tauto

/-- C6 (amended): the stripping needs the asterisk. For every raw string
that — after trim and uppercasing — begins with "PAYPAL", optional
whitespace and an asterisk, the `PAYPAL_PREFIX` pattern matches at the
start (so the leading prefix is consumed by the substitution), and the
normalized result no longer begins with such a PAYPAL-asterisk prefix. -/
theorem claim_C6_paypal_star_prefix_stripped (raw : List Char)
    (h : paypalStarLead (pyUpper (pyStrip raw)) = true) :
    (∃ rest, matchPaypal (pyUpper (pyStrip raw)) = some rest) ∧
    paypalStarLead (cleanChars raw) = false := by
  constructor
  · rw [paypalStarLead, Bool.and_eq_true, beq_iff_eq] at h
    rcases h with ⟨hpre, hstar⟩
    rcases hd : ((pyUpper (pyStrip raw)).drop 6).dropWhile pySpace with _ | ⟨c0, t2⟩
    · rw [hd] at hstar; cases hstar
    · rw [hd] at hstar
      simp only [List.head?] at hstar
      have hc0 : c0 = '*' := Option.some.inj hstar
      subst hc0
      rcases ht : (pyUpper (pyStrip raw)).drop 6 with _ | ⟨c, t⟩
      · rw [ht] at hd; cases hd
      · rw [ht] at hd
        have hcstar : c = '*' ∨ pySpace c = true := by
          by_cases hsp : pySpace c = true
          · exact Or.inr hsp
          · left
            have hspf : pySpace c = false := Bool.eq_false_iff.mpr hsp
            rw [List.dropWhile_cons, hspf] at hd
            simp only [Bool.false_eq_true, if_false] at hd
            exact (List.cons.injEq _ _ _ _ ▸ hd).1
        have hword : isWordChar c = false := by
          rcases hcstar with rfl | hsp
          · decide
          · by_contra hw
            rw [Bool.not_eq_false] at hw
            rw [pySpace_of_wordChar hw] at hsp
            cases hsp
        refine ⟨List.dropWhile pySpace t2, ?_⟩
        rw [matchPaypal, if_pos hpre, ht]
        simp [hword, hd]
  by_contra hc
  rw [Bool.not_eq_false, paypalStarLead, Bool.and_eq_true] at hc
  rcases hc with ⟨_, hstar⟩
  rw [beq_iff_eq] at hstar
  have hmem : '*' ∈ cleanChars raw := by
    have h1 : '*' ∈ ((cleanChars raw).drop 6).dropWhile pySpace :=
      List.mem_of_mem_head? hstar
    have h2 := (List.dropWhile_sublist (l := (cleanChars raw).drop 6)
      (p := pySpace)).subset h1
    exact (List.drop_sublist 6 (cleanChars raw)).subset h2
  exact star_not_mem_cleanChars raw hmem

theorem claim_C6_paypal_star_prefix_stripped_witness :
    (∃ rest, matchPaypal (pyUpper (pyStrip "PAYPAL *NETFLIX".data)) = some rest) ∧
    paypalStarLead (cleanChars "PAYPAL *NETFLIX".data) = false :=
  claim_C6_paypal_star_prefix_stripped ("PAYPAL *NETFLIX".data) (by decide)

/-- The live merchant table only ever grows (by appends) during a
resolver pass. -/
theorem resolveLoop_merchants_prefix (score : List Char → List Char → ℚ) (thr : ℚ)
    (aliases : List AliasRec) (snapshot : List MerchantRec) :
    ∀ (txns : List TxnRec) (ms : List MerchantRec) (nid w : ℕ),
      ms <+: (resolveLoop score thr aliases snapshot txns ms nid w).2.1 := by
  intro txns
  induction txns with
  | nil => intro ms nid w; exact List.prefix_refl ms
  | cons t rest ih =>
    intro ms nid w
    rcases hco : chooseStatic score thr aliases snapshot (cleanChars t.description_raw)
      with _ | i
    · by_cases hemp : (cleanChars t.description_raw).isEmpty
      · simp only [resolveLoop, hco, hemp, if_true]
        exact ih ms nid _
      · rcases hfind : ms.find? (fun m =>
            m.canonical_name == canonName (canonical_hint (cleanChars t.description_raw)))
          with _ | m
        · simp only [resolveLoop, hco, hemp, Bool.false_eq_true, if_false, hfind]
          exact (List.prefix_append ms _).trans (ih _ _ _)
        · simp only [resolveLoop, hco, hemp, Bool.false_eq_true, if_false, hfind]
          exact ih ms nid _
    · simp only [resolveLoop, hco]
      exact ih ms nid _

/-- Writing the chosen merchant id preserves the raw description. -/
theorem upd_desc (t : TxnRec) (v : Option ℕ) :
    ((if t.merchant_id = v then t else { t with merchant_id := v }) :
      TxnRec).description_raw = t.description_raw := by
  by_cases h : t.merchant_id = v <;> simp [h]

/-- After the write decision, the row carries exactly the chosen id. -/
theorem upd_mid (t : TxnRec) (v : Option ℕ) :
    ((if t.merchant_id = v then t else { t with merchant_id := v }) :
      TxnRec).merchant_id = v := by
  by_cases h : t.merchant_id = v <;> simp [h]

/-- If a resolver pass leaves the live merchant table unchanged, it also
leaves the next merchant id unchanged, and replaying the pass on its own
output rows is the identity with no further writes. -/
theorem resolveLoop_stable (score : List Char → List Char → ℚ) (thr : ℚ)
    (aliases : List AliasRec) (snapshot : List MerchantRec) :
    ∀ (txns : List TxnRec) (ms : List MerchantRec) (nid w : ℕ),
      (resolveLoop score thr aliases snapshot txns ms nid w).2.1 = ms →
      (resolveLoop score thr aliases snapshot txns ms nid w).2.2.1 = nid ∧
      ∀ w', resolveLoop score thr aliases snapshot
          (resolveLoop score thr aliases snapshot txns ms nid w).1 ms nid w' =
        ((resolveLoop score thr aliases snapshot txns ms nid w).1, ms, nid, w') := by
  intro txns
  induction txns with
  | nil => intro ms nid w _; exact ⟨rfl, fun w' => rfl⟩
  | cons t rest ih =>
    intro ms nid w h
    rcases hco : chooseStatic score thr aliases snapshot (cleanChars t.description_raw)
      with _ | i
    · by_cases hemp : (cleanChars t.description_raw).isEmpty
      · simp only [resolveLoop, hco, hemp, if_true, upd_desc, upd_mid] at h ⊢
        obtain ⟨ih1, ih2⟩ := ih ms nid _ h
        refine ⟨ih1, fun w' => ?_⟩
        simp only [ih2 w']
      · rcases hfind : ms.find? (fun m =>
            m.canonical_name == canonName (canonical_hint (cleanChars t.description_raw)))
          with _ | m
        · exfalso
          simp only [resolveLoop, hco, hemp, Bool.false_eq_true, if_false, hfind] at h
          have hp := resolveLoop_merchants_prefix score thr aliases snapshot rest
            (ms ++ [MerchantRec.mk nid (canonName (canonical_hint (cleanChars t.description_raw)))])
            (nid + 1) (if t.merchant_id = some nid then w else w + 1)
          rw [h] at hp
          have hlen := hp.length_le
          simp only [List.length_append, List.length_cons, List.length_nil] at hlen
          omega
        · simp only [resolveLoop, hco, hemp, Bool.false_eq_true, if_false, hfind,
            upd_desc, upd_mid] at h ⊢
          obtain ⟨ih1, ih2⟩ := ih ms nid _ h
          refine ⟨ih1, fun w' => ?_⟩
          simp only [eq_self_iff_true, if_true]
          simp only [ih2 w']
    · simp only [resolveLoop, hco, upd_desc, upd_mid] at h ⊢
      obtain ⟨ih1, ih2⟩ := ih ms nid _ h
      refine ⟨ih1, fun w' => ?_⟩
      simp only [eq_self_iff_true, if_true]
      simp only [ih2 w']

/-- C4: merchant resolution is idempotent and deterministic.  When a pass
of `resolve_merchants` leaves the merchant table unchanged (the claim's
"unchanged transaction, alias, and merchant tables" between the runs: the
alias table and the snapshot are untouched by the resolver, and the
transaction rows the second run sees are exactly the first run's output),
a second pass returns the identical state — every transaction keeps the
same chosen merchant id — and performs zero assignment writes. -/
theorem claim_C4_resolver_idempotent (score : List Char → List Char → ℚ) (thr : ℚ)
    (s : ResolveState)
    (hm : (resolve_merchants score s thr).1.merchants = s.merchants) :
    (resolve_merchants score (resolve_merchants score s thr).1 thr).1
      = (resolve_merchants score s thr).1 ∧
    (resolve_merchants score (resolve_merchants score s thr).1 thr).2 = 0 := by
  simp only [resolve_merchants] at hm ⊢
  obtain ⟨h1, h2⟩ := resolveLoop_stable score thr s.aliases s.merchants
    s.txns s.merchants s.nextMerchantId 0 hm
  rw [hm, h1, h2 0]
  exact ⟨rfl, rfl⟩

theorem claim_C4_resolver_idempotent_witness :
    (resolve_merchants (fun _ _ => (0 : ℚ))
        (ResolveState.mk [TxnRec.mk 1 "NETFLIX".data none]
          [MerchantRec.mk 1 "NETFLIX".data] [] 2) 92).1.merchants
      = [MerchantRec.mk 1 "NETFLIX".data] ∧
    ((resolve_merchants (fun _ _ => (0 : ℚ))
        (resolve_merchants (fun _ _ => (0 : ℚ))
          (ResolveState.mk [TxnRec.mk 1 "NETFLIX".data none]
            [MerchantRec.mk 1 "NETFLIX".data] [] 2) 92).1 92).1
      = (resolve_merchants (fun _ _ => (0 : ℚ))
          (ResolveState.mk [TxnRec.mk 1 "NETFLIX".data none]
            [MerchantRec.mk 1 "NETFLIX".data] [] 2) 92).1 ∧
    (resolve_merchants (fun _ _ => (0 : ℚ))
        (resolve_merchants (fun _ _ => (0 : ℚ))
          (ResolveState.mk [TxnRec.mk 1 "NETFLIX".data none]
            [MerchantRec.mk 1 "NETFLIX".data] [] 2) 92).1 92).2 = 0) :=
  ⟨by decide, claim_C4_resolver_idempotent (fun _ _ => (0 : ℚ)) 92
    (ResolveState.mk [TxnRec.mk 1 "NETFLIX".data none]
      [MerchantRec.mk 1 "NETFLIX".data] [] 2) (by decide)⟩

end SubSentry
